import Mathlib

/-!
# A verification development for the `lexer` scanning engine

Shallow embedding of `TokenizerState` (source/Tokenizer.cpp), of the scanning
primitives of `Tokenizer<TokenType>` (include/lexer/Tokenizer.h), of
`TokenTemplate` (include/lexer/Token.h), of `Parser<TokenType>`
(include/lexer/Parser.h) and of `ParserException` (include/lexer/Exception.h).

Modelling conventions.

* The character buffer `[m_begin, m_end)` is the list `buf`; a `const char*`
  into it is its offset from `m_begin`, a natural number, so `m_begin` is
  offset `0` and `m_end` is offset `buf.length`.  A returned `nullptr` is
  `none`.
* `char` is `Char`; the value `0` that `CurChar` and `LookAhead` return at the
  end of the buffer is `NUL`.
* `m_line` and `m_column` are natural numbers: from construction they are at
  most one more than the number of characters advanced over, so the `size_t`
  counters of the source do not wrap.
* A member function that may throw returns an `Outcome`: the value it returns
  or the exception it throws, together with the state it leaves behind.
* Every `while` loop of the source advances the cursor once per iteration and
  stops at the end of the buffer, so it runs at most `m_end - m_cur` times; the
  loops are recursions on that count, and `ReadDigitsLoop_exits`,
  `ReadQuotedStringLoop_exits`, `ScanLoop_exits` and `ReadAnyStringLoop_exits`
  show that the count is never what stops them.
* A `std::string` argument of the tokenizer is a `List Char`; the names and
  messages of the parser helper are `String`s.  A `std::map` is the list of
  its entries in key order.
* The macro `assert` comes from the C library; whether it is compiled out is
  the parameter `NDEBUG` of `Parser.Expect`, and a failed assertion ends a
  call in `Completion.aborted`.
-/

namespace lexer

/-- The exception type of Exception.h, one constructor per C++ constructor:
`located line column str` is `ParserException(line, column, str)` and
`plain str` is `ParserException(str)`. -/
inductive ParserException where
  | located (line column : Nat) (str : String)
  | plain (str : String)
deriving DecidableEq

namespace ParserException

/-- The line and column an exception was constructed with, if any. -/
def position : ParserException → Option (Nat × Nat)
  | located line column _ => some (line, column)
  | plain _ => none

/-- The message string an exception was constructed with. -/
def message : ParserException → String
  | located _ _ str => str
  | plain str => str

end ParserException

/-- The value `0` of type `char`. -/
def NUL : Char := Char.ofNat 0

/-- The class `TokenizerState`.  `buf` holds the characters of
`[m_begin, m_end)` and `m_cur` is the offset of the current position. -/
structure TokenizerState where
  buf : List Char
  m_cur : Nat
  m_escapable_chars : List Char
  m_escape_char : Char
  m_line : Nat
  m_column : Nat
  m_escaped : Bool
deriving DecidableEq

deriving instance DecidableEq for Except

/-- A value returned or an exception thrown, with the state left behind. -/
abbrev Outcome (ε α : Type) := Except ε α × TokenizerState

/-- Sequencing of two calls: an exception of the first propagates. -/
def Outcome.bind {ε α β : Type} (r : Outcome ε α)
    (f : α → TokenizerState → Outcome ε β) : Outcome ε β :=
  match r with
  | (.ok a, s) => f a s
  | (.error e, s) => (.error e, s)

namespace TokenizerState

/-- The constructor `TokenizerState(begin, end, escapable_chars, escape_char)`. -/
def new (buf : List Char) (escapable_chars : List Char) (escape_char : Char) :
    TokenizerState :=
  { buf := buf, m_cur := 0, m_escapable_chars := escapable_chars,
    m_escape_char := escape_char, m_line := 1, m_column := 1, m_escaped := false }

def Length (s : TokenizerState) : Nat := s.buf.length

def Begin (_s : TokenizerState) : Nat := 0

def End (s : TokenizerState) : Nat := s.buf.length

def CurPos (s : TokenizerState) : Nat := s.m_cur

/-- The character `*ptr`; every read of the source is behind an `Eof` test. -/
def deref (s : TokenizerState) (ptr : Nat) : Char := s.buf.getD ptr NUL

/-- The unguarded `TokenizerState::CurChar`, `*m_cur`. -/
def CurChar (s : TokenizerState) : Char := s.deref s.m_cur

/-- The overload `Eof(ptr)`. -/
def EofAt (s : TokenizerState) (ptr : Nat) : Bool := decide (ptr ≥ s.End)

def Eof (s : TokenizerState) : Bool := s.EofAt s.m_cur

def LookAhead (s : TokenizerState) (offset : Nat) : Char :=
  if s.EofAt (s.m_cur + offset) then NUL else s.deref (s.m_cur + offset)

def Line (s : TokenizerState) : Nat := s.m_line

def Column (s : TokenizerState) : Nat := s.m_column

def Escaped (s : TokenizerState) : Bool :=
  !s.Eof && s.m_escaped && s.m_escapable_chars.contains s.CurChar

def ResetEscaped (s : TokenizerState) : TokenizerState :=
  { s with m_escaped := false }

def ErrorIfEof (s : TokenizerState) : Except ParserException Unit :=
  if s.Eof then .error (ParserException.plain "Unexpected end of file") else .ok ()

/-- The bookkeeping of `Advance()` after its `ErrorIfEof` has passed: the
`switch` on the current character, then `++m_cur`. -/
def step (s : TokenizerState) : TokenizerState :=
  let s1 : TokenizerState :=
    if s.CurChar = '\n' then
      { s with m_line := s.m_line + 1, m_column := 1, m_escaped := false }
    else
      { s with m_column := s.m_column + 1,
               m_escaped := if s.CurChar = s.m_escape_char then !s.m_escaped else false }
  { s1 with m_cur := s1.m_cur + 1 }

/-- The member `Advance()`. -/
def Advance (s : TokenizerState) : Outcome ParserException Unit :=
  match s.ErrorIfEof with
  | .error e => (.error e, s)
  | .ok () => (.ok (), s.step)

/-- The member `Advance(offset)`: `offset` calls of `Advance()`. -/
def AdvanceN : Nat → TokenizerState → Outcome ParserException Unit
  | 0, s => (.ok (), s)
  | n + 1, s => (s.Advance).bind (fun _ s1 => AdvanceN n s1)

def Reset (s : TokenizerState) : TokenizerState :=
  { s with m_cur := 0, m_line := 1, m_column := 1, m_escaped := false }

end TokenizerState

/-- The nested class `TokenizerState::Snapshot`. -/
structure Snapshot where
  m_cur : Nat
  m_line : Nat
  m_column : Nat
  m_escaped : Bool
deriving DecidableEq

namespace TokenizerState

def GetSnapshot (s : TokenizerState) : Snapshot :=
  { m_cur := s.m_cur, m_line := s.m_line, m_column := s.m_column, m_escaped := s.m_escaped }

def Restore (s : TokenizerState) (snapshot : Snapshot) : TokenizerState :=
  { s with m_cur := snapshot.m_cur, m_line := snapshot.m_line,
           m_column := snapshot.m_column, m_escaped := snapshot.m_escaped }

end TokenizerState

/-- The class `TokenTemplate<Type>` with an unsigned integer `Type`. -/
structure Token where
  m_type : Nat
  m_begin : Nat
  m_end : Nat
  m_position : Nat
  m_line : Nat
  m_column : Nat
deriving DecidableEq

def Token.HasType (t : Token) (mask : Nat) : Bool := (t.m_type &&& mask) != 0

namespace Tokenizer

/-- The guarded `Tokenizer::CurChar`: `0` at the end of the buffer. -/
def CurChar (s : TokenizerState) : Char :=
  if s.Eof then NUL else s.deref s.CurPos

def IsDigit (c : Char) : Bool := decide (c ≥ '0') && decide (c ≤ '9')

def IsAnyOf (c : Char) (allow : List Char) : Bool := allow.any (fun a => c == a)

def IsEscaped (s : TokenizerState) : Bool := s.Escaped

/-- The loop `while (!Eof() && IsDigit(CurChar())) Advance();`, at most
`fuel` iterations. -/
def ReadDigitsLoop : Nat → TokenizerState → Outcome ParserException Unit
  | 0, s => (.ok (), s)
  | fuel + 1, s =>
    if !s.Eof && IsDigit (CurChar s) then
      (s.Advance).bind (fun _ s1 => ReadDigitsLoop fuel s1)
    else (.ok (), s)

def ReadDigits (s : TokenizerState) : Outcome ParserException Unit :=
  ReadDigitsLoop (s.End - s.m_cur) s

def ReadInteger (delims : List Char) (s : TokenizerState) :
    Outcome ParserException (Option Nat) :=
  if CurChar s ≠ '+' ∧ CurChar s ≠ '-' ∧ ¬ IsDigit (CurChar s) then (.ok none, s)
  else
    let previous := s
    (if CurChar s = '+' ∨ CurChar s = '-' then s.Advance else (.ok (), s)).bind fun _ s1 =>
    (ReadDigitsLoop (s1.End - s1.m_cur) s1).bind fun _ s2 =>
    if s2.Eof ∨ IsAnyOf (CurChar s2) delims then (.ok (some s2.CurPos), s2)
    else (.ok none, previous)

def ReadDecimal (delims : List Char) (s : TokenizerState) :
    Outcome ParserException (Option Nat) :=
  if CurChar s ≠ '+' ∧ CurChar s ≠ '-' ∧ CurChar s ≠ '.' ∧ ¬ IsDigit (CurChar s) then
    (.ok none, s)
  else
    let previous := s
    (if CurChar s ≠ '.' then (s.Advance).bind (fun _ t => ReadDigits t)
     else (.ok (), s)).bind fun _ s1 =>
    (if CurChar s1 = '.' then (s1.Advance).bind (fun _ t => ReadDigits t)
     else (.ok (), s1)).bind fun _ s2 =>
    (if CurChar s2 = 'e' then
       (s2.Advance).bind fun _ t =>
         if CurChar t = '+' ∨ CurChar t = '-' ∨ IsDigit (CurChar t) then
           (t.Advance).bind (fun _ u => ReadDigits u)
         else (.ok (), t)
     else (.ok (), s2)).bind fun _ s3 =>
    if s3.Eof ∨ IsAnyOf (CurChar s3) delims then (.ok (some s3.CurPos), s3)
    else (.ok none, previous)

/-- The loop of `ReadQuotedString`, at most `fuel` iterations: while not at the
end and the current character is not `delim` or is escaped, either break at
the hack (after `ResetEscaped`) or `Advance()`. -/
def ReadQuotedStringLoop (delim : Char) (hack_delims : List Char) :
    Nat → TokenizerState → Outcome ParserException Unit
  | 0, s => (.ok (), s)
  | fuel + 1, s =>
    if !s.Eof && (CurChar s != delim || IsEscaped s) then
      if !hack_delims.isEmpty && CurChar s == '"' && IsEscaped s
          && hack_delims.contains (s.LookAhead 1) then
        (.ok (), s.ResetEscaped)
      else
        (s.Advance).bind (fun _ s1 => ReadQuotedStringLoop delim hack_delims fuel s1)
    else (.ok (), s)

/-- The member `ReadQuotedString(delim, hack_delims)`; the defaults of the
source are `delim = '"'` and `hack_delims = ""`. -/
def ReadQuotedString (delim : Char) (hack_delims : List Char) (s : TokenizerState) :
    Outcome ParserException Nat :=
  (ReadQuotedStringLoop delim hack_delims (s.End - s.m_cur) s).bind fun _ s1 =>
  match s1.ErrorIfEof with
  | .error e => (.error e, s1)
  | .ok () =>
    let end_pos := s1.CurPos
    (s1.Advance).bind fun _ s2 => (.ok end_pos, s2)

/-- The member `MatchesPattern(pattern)`; it is `const`, so it only returns a
value.  The `for` loop runs over `i = 1, ..., pattern.size() - 1` and returns
`false` at the first mismatch. -/
def MatchesPattern (pattern : List Char) (s : TokenizerState) : Bool :=
  if pattern.isEmpty || IsEscaped s || CurChar s != pattern.getD 0 NUL then false
  else (List.range' 1 (pattern.length - 1)).all
    (fun i => !(s.LookAhead i != pattern.getD i NUL))

/-- The pure virtual member `EmitToken()`, supplied by the concrete lexer: it
returns a token or throws, and leaves a state behind. -/
abbrev Emitter (ε : Type) := TokenizerState → Outcome ε Token

def NextToken {ε : Type} (EmitToken : Emitter ε) (s : TokenizerState) : Outcome ε Token :=
  EmitToken s

/-- The member `PeekToken()`: `SaveState old_state(m_state); return NextToken();`.
The constructor of `SaveState` takes the snapshot and its destructor restores
it, on a return and on a throw alike. -/
def PeekToken {ε : Type} (EmitToken : Emitter ε) (s : TokenizerState) : Outcome ε Token :=
  let m_snapshot := s.GetSnapshot
  let r := NextToken EmitToken s
  (r.1, r.2.Restore m_snapshot)

/-- The member `SkipToken(skipTokens)`. -/
def SkipToken {ε : Type} (EmitToken : Emitter ε) (skipTokens : Nat) (s : TokenizerState) :
    Outcome ε Unit :=
  (PeekToken EmitToken s).bind fun tok s1 =>
    if tok.HasType skipTokens then
      (NextToken EmitToken s1).bind fun _ s2 => (.ok (), s2)
    else (.ok (), s1)

end Tokenizer

/-- The characters from the current position to the end of the buffer. -/
def TokenizerState.text (s : TokenizerState) : List Char := s.buf.drop s.m_cur

/-- The state after `n` successful calls of `Advance()`. -/
def TokenizerState.stepN : Nat → TokenizerState → TokenizerState
  | 0, s => s
  | n + 1, s => TokenizerState.stepN n s.step

/-- The cursor is at the end of the buffer or on a character of `delims`. -/
def TokenizerState.AtTerminator (s : TokenizerState) (delims : List Char) : Prop :=
  s.buf.length ≤ s.m_cur ∨ ∃ c ∈ delims, s.buf[s.m_cur]? = some c

/-- The characters of the buffer from offset `a` up to, not including, offset `b`. -/
def TokenizerState.slice (s : TokenizerState) (a b : Nat) : List Char :=
  (s.buf.drop a).take (b - a)

/-- An optional sign: nothing, `+` or `-`. -/
def OptSign (l : List Char) : Prop := l = [] ∨ l = ['+'] ∨ l = ['-']

/-- One or more decimal digits. -/
def Digits (l : List Char) : Prop := l ≠ [] ∧ ∀ d ∈ l, Tokenizer.IsDigit d = true

/-- The integer grammar in the words of the specification: an optional leading
`+` or `-`, then one or more decimal digits. -/
def IntegerGrammar (l : List Char) : Prop :=
  ∃ sign digits, l = sign ++ digits ∧ OptSign sign ∧ Digits digits

/-- The mantissa of a decimal literal in the words of the specification:
digits, optionally followed by `.` and optional digits; or `.` followed by
digits. -/
def Mantissa (l : List Char) : Prop :=
  (∃ ip fp, Digits ip ∧ (∀ d ∈ fp, Tokenizer.IsDigit d = true) ∧ (l = ip ∨ l = ip ++ '.' :: fp)) ∨
  (∃ fp, Digits fp ∧ l = '.' :: fp)

/-- The optional exponent of a decimal literal in the words of the
specification: nothing, or `e`, an optional sign and digits. -/
def OptExponent (l : List Char) : Prop :=
  l = [] ∨ ∃ es ed, OptSign es ∧ Digits ed ∧ l = 'e' :: (es ++ ed)

/-- The decimal grammar in the words of the specification:
`[sign] (digits ['.' [digits]] | '.' digits) ['e' [sign] digits]`. -/
def DecimalGrammar (l : List Char) : Prop :=
  ∃ sign mant expo, l = sign ++ mant ++ expo ∧ OptSign sign ∧ Mantissa mant ∧ OptExponent expo

/-- An emission leaves the buffer and the escape configuration alone.  A
concrete lexer reaches the state only through the members of `Tokenizer`, and
none of them assigns `m_begin`, `m_end`, `m_escapable_chars` or
`m_escape_char`. -/
def KeepsBuffer {ε : Type} (EmitToken : Tokenizer.Emitter ε) : Prop :=
  ∀ s, (EmitToken s).2.buf = s.buf ∧
    (EmitToken s).2.m_escapable_chars = s.m_escapable_chars ∧
    (EmitToken s).2.m_escape_char = s.m_escape_char

/-- The pattern match in the words of the specification: the cursor is not
escaped and the buffer characters at `m_cur, ..., m_cur + len - 1` all lie
before the end and equal the pattern character for character. -/
def MatchesHere (pattern : List Char) (s : TokenizerState) : Prop :=
  s.Escaped = false ∧ ∀ i, i < pattern.length → s.buf[s.m_cur + i]? = pattern[i]?

/-- A smallest concrete lexer, for the examples: it advances over one character
and emits a token of type 1 for it. -/
def emitChar : Tokenizer.Emitter ParserException := fun s =>
  (s.Advance).bind fun _ s1 =>
    (.ok ⟨1, s.m_cur, s1.m_cur, s.m_cur, s.m_line, s.m_column⟩, s1)

/-- The state after `n` calls of `Advance()`, whether each returns or throws. -/
def TokenizerState.advanceCalls : Nat → TokenizerState → TokenizerState
  | 0, s => s
  | n + 1, s => TokenizerState.advanceCalls n (s.Advance).2

namespace Tokenizer

/-- The loop `while (!Eof() && test(CurChar())) Advance();`, at most `fuel`
iterations.  It is the loop of `ReadUntil` and `DiscardUntil`, where `test` is
`!IsAnyOf(c, delims)`, and of `ReadWhile` and `DiscardWhile`, where `test` is
`IsAnyOf(c, allow)`. -/
def ScanLoop (test : Char → Bool) : Nat → TokenizerState → Outcome ParserException Unit
  | 0, s => (.ok (), s)
  | fuel + 1, s =>
    if !s.Eof && test (CurChar s) then
      (s.Advance).bind (fun _ s1 => ScanLoop test fuel s1)
    else (.ok (), s)

def ReadUntil (delims : List Char) (s : TokenizerState) : Outcome ParserException Nat :=
  (ScanLoop (fun c => !IsAnyOf c delims) (s.End - s.m_cur) s).bind fun _ s1 =>
    (.ok s1.CurPos, s1)

def ReadWhile (allow : List Char) (s : TokenizerState) : Outcome ParserException Nat :=
  (ScanLoop (fun c => IsAnyOf c allow) (s.End - s.m_cur) s).bind fun _ s1 =>
    (.ok s1.CurPos, s1)

def DiscardWhile (allow : List Char) (s : TokenizerState) : Outcome ParserException Nat :=
  (ScanLoop (fun c => IsAnyOf c allow) (s.End - s.m_cur) s).bind fun _ s1 =>
    (.ok s1.CurPos, s1)

def DiscardUntil (delims : List Char) (s : TokenizerState) : Outcome ParserException Nat :=
  (ScanLoop (fun c => !IsAnyOf c delims) (s.End - s.m_cur) s).bind fun _ s1 =>
    (.ok s1.CurPos, s1)

/-- The member `Discard(str)`.  The `for` loop returns `nullptr` at the first
`i` with `LookAhead(i) == 0` or `LookAhead(i) != str[i]`; after it comes
`Advance(str.size())`. -/
def Discard (str : List Char) (s : TokenizerState) : Outcome ParserException (Option Nat) :=
  if (List.range str.length).any
      (fun i => s.LookAhead i == NUL || s.LookAhead i != str.getD i NUL) then
    (.ok none, s)
  else
    (s.AdvanceN str.length).bind fun _ s1 => (.ok (some s1.CurPos), s1)

/-- The static member `Whitespace()`: space, tab, newline, carriage return. -/
def Whitespace : List Char := [' ', '\t', '\n', '\r']

def IsWhitespace (c : Char) : Bool := IsAnyOf c Whitespace

/-- The loop `while (IsWhitespace(CurChar())) Advance();` of `ReadAnyString`,
at most `fuel` iterations. -/
def ReadAnyStringLoop : Nat → TokenizerState → Outcome ParserException Unit
  | 0, s => (.ok (), s)
  | fuel + 1, s =>
    if IsWhitespace (CurChar s) then
      (s.Advance).bind (fun _ s1 => ReadAnyStringLoop fuel s1)
    else (.ok (), s)

/-- The member `ReadAnyString(delims)`; the returned `std::string` is the
`end_pos - start_pos` characters from `start_pos`. -/
def ReadAnyString (delims : List Char) (s : TokenizerState) :
    Outcome ParserException (List Char) :=
  (ReadAnyStringLoop (s.End - s.m_cur) s).bind fun _ s1 =>
  let start_pos := s1.CurPos
  (if CurChar s1 = '"' then ReadQuotedString '"' [] s1 else ReadUntil delims s1).bind
    fun end_pos s2 => (.ok (s2.slice start_pos end_pos), s2)

end Tokenizer

/-- The buffer characters at `m_cur, ..., m_cur + len - 1` all lie before the
end and equal `str` character for character. -/
def StartsWith (str : List Char) (s : TokenizerState) : Prop :=
  ∀ i, i < str.length → s.buf[s.m_cur + i]? = str[i]?

/-- The states of a cursor constructed over `buf` with the given escape
configuration, after any sequence of calls of the members listed: each call
leaves a reachable state, whether it returns or throws, and a snapshot restored
is one taken from a reachable state of the same cursor. -/
inductive Reachable (buf escapable_chars : List Char) (escape_char : Char) :
    TokenizerState → Prop where
  | construct : Reachable buf escapable_chars escape_char
      (TokenizerState.new buf escapable_chars escape_char)
  | advance {s : TokenizerState} : Reachable buf escapable_chars escape_char s →
      Reachable buf escapable_chars escape_char (s.Advance).2
  | advanceN {s : TokenizerState} (n : Nat) : Reachable buf escapable_chars escape_char s →
      Reachable buf escapable_chars escape_char (s.AdvanceN n).2
  | reset {s : TokenizerState} : Reachable buf escapable_chars escape_char s →
      Reachable buf escapable_chars escape_char s.Reset
  | restore {s t : TokenizerState} : Reachable buf escapable_chars escape_char s →
      Reachable buf escapable_chars escape_char t →
      Reachable buf escapable_chars escape_char (s.Restore t.GetSnapshot)
  | readInteger {s : TokenizerState} (delims : List Char) :
      Reachable buf escapable_chars escape_char s →
      Reachable buf escapable_chars escape_char (Tokenizer.ReadInteger delims s).2
  | readDecimal {s : TokenizerState} (delims : List Char) :
      Reachable buf escapable_chars escape_char s →
      Reachable buf escapable_chars escape_char (Tokenizer.ReadDecimal delims s).2
  | readUntil {s : TokenizerState} (delims : List Char) :
      Reachable buf escapable_chars escape_char s →
      Reachable buf escapable_chars escape_char (Tokenizer.ReadUntil delims s).2
  | readWhile {s : TokenizerState} (allow : List Char) :
      Reachable buf escapable_chars escape_char s →
      Reachable buf escapable_chars escape_char (Tokenizer.ReadWhile allow s).2
  | readQuotedString {s : TokenizerState} (delim : Char) (hack_delims : List Char) :
      Reachable buf escapable_chars escape_char s →
      Reachable buf escapable_chars escape_char (Tokenizer.ReadQuotedString delim hack_delims s).2
  | discard {s : TokenizerState} (str : List Char) :
      Reachable buf escapable_chars escape_char s →
      Reachable buf escapable_chars escape_char (Tokenizer.Discard str s).2

/-- The invariant of a cursor over `buf`: the buffer is `buf`, the position is
within it, and line and column are at least 1. -/
def CursorInv (buf : List Char) (s : TokenizerState) : Prop :=
  s.buf = buf ∧ s.m_cur ≤ s.buf.length ∧ 1 ≤ s.m_line ∧ 1 ≤ s.m_column

def Token.GetType (t : Token) : Nat := t.m_type

def Token.Length (t : Token) : Nat := t.m_end - t.m_begin

/-- The member `Data()`: the `Length()` characters from `m_begin`, read from the
buffer `buf` the token points into. -/
def Token.Data (buf : List Char) (t : Token) : String :=
  String.mk ((buf.drop t.m_begin).take t.Length)

/-- The type `std::map<TokenType, std::string>`: its entries in iteration
order, which is by increasing key. -/
abbrev TokenNameMap := List (Nat × String)

/-- The class `Parser<TokenType>`; its only member is the `mutable` cache
`m_token_names`. -/
structure Parser where
  m_token_names : TokenNameMap
deriving DecidableEq

/-- How a call of a member of `Parser` ends: it returns, it throws, or the
program is aborted by a failed `assert`. -/
inductive Completion (α : Type) where
  | returned (a : α)
  | thrown (e : ParserException)
  | aborted
deriving DecidableEq

/-- The macro `assert` of the C library, which is not part of the repository:
`NDEBUG` says whether the program was compiled with `NDEBUG` defined.  The
value says whether execution continues: with `NDEBUG` the macro does nothing,
without it a false expression aborts the program. -/
def assert (NDEBUG : Bool) (expression : Bool) : Bool := NDEBUG || expression

namespace Parser

def Check (mask : Nat) (token : Token) : Bool := token.HasType mask

/-- The member `TokenName(mask)`.  `TokenNames` is what the pure virtual
`TokenNames()` of the concrete parser returns; the result comes with the
parser and its cache after the call. -/
def TokenName (TokenNames : TokenNameMap) (p : Parser) (mask : Nat) : String × Parser :=
  let p1 : Parser := if p.m_token_names.isEmpty then { m_token_names := TokenNames } else p
  let names : List String :=
    (p1.m_token_names.filter (fun entry => (mask &&& entry.1) != 0)).map (fun entry => entry.2)
  if names.isEmpty then ("unknown token type", p1)
  else if names.length = 1 then (names.getD 0 "", p1)
  else (names.foldl (fun ret name => ret ++ (name ++ ", ")) "", p1)

/-- The member `ExpectString(expected, token)`. -/
def ExpectString (TokenNames : TokenNameMap) (buf : List Char) (p : Parser)
    (expected : String) (token : Token) : String × Parser :=
  let r := TokenName TokenNames p token.GetType
  let msg := "Expected " ++ expected ++ ", but got " ++ r.1
  if !(token.Data buf).isEmpty then
    (msg ++ " (raw data: '" ++ token.Data buf ++ "')", r.2)
  else (msg, r.2)

/-- The member `Expect(mask, token)`: on a mismatch `assert(0)`, then the
`throw`. -/
def Expect (NDEBUG : Bool) (TokenNames : TokenNameMap) (buf : List Char) (p : Parser)
    (mask : Nat) (token : Token) : Completion Token × Parser :=
  if !Check mask token then
    if !assert NDEBUG false then (.aborted, p)
    else
      let names := TokenName TokenNames p mask
      let msg := ExpectString TokenNames buf names.2 names.1 token
      (.thrown (ParserException.located token.m_line token.m_column msg.1), msg.2)
  else (.returned token, p)

end Parser

/-- The name list in the words of the specification: the names joined with
`", "` between consecutive names and nothing else. -/
def joinedNames (names : List String) : String := ", ".intercalate names

open Tokenizer

/-! ## Basic facts about the cursor -/

@[simp] theorem Outcome.bind_ok {ε α β : Type} (a : α) (s : TokenizerState)
    (f : α → TokenizerState → Outcome ε β) :
    Outcome.bind ((Except.ok a, s) : Outcome ε α) f = f a s := rfl

@[simp] theorem Outcome.bind_error {ε α β : Type} (e : ε) (s : TokenizerState)
    (f : α → TokenizerState → Outcome ε β) :
    Outcome.bind ((Except.error e, s) : Outcome ε α) f = (Except.error e, s) := rfl

theorem Eof_eq_true_iff (s : TokenizerState) : s.Eof = true ↔ s.buf.length ≤ s.m_cur := by
  simp [TokenizerState.Eof, TokenizerState.EofAt, TokenizerState.End]

theorem Eof_eq_false_iff (s : TokenizerState) : s.Eof = false ↔ s.m_cur < s.buf.length := by
  simp [TokenizerState.Eof, TokenizerState.EofAt, TokenizerState.End]

theorem Eof_iff_text_nil (s : TokenizerState) : s.Eof = true ↔ s.text = [] := by
  simp [Eof_eq_true_iff, TokenizerState.text]

theorem Advance_of_not_eof {s : TokenizerState} (h : s.Eof = false) :
    s.Advance = (.ok (), s.step) := by
  simp [TokenizerState.Advance, TokenizerState.ErrorIfEof, h]

theorem Advance_of_eof {s : TokenizerState} (h : s.Eof = true) :
    s.Advance = (.error (ParserException.plain "Unexpected end of file"), s) := by
  simp [TokenizerState.Advance, TokenizerState.ErrorIfEof, h]

@[simp] theorem step_buf (s : TokenizerState) : s.step.buf = s.buf := by
  unfold TokenizerState.step; split <;> rfl

@[simp] theorem step_m_cur (s : TokenizerState) : s.step.m_cur = s.m_cur + 1 := by
  unfold TokenizerState.step; split <;> rfl

@[simp] theorem step_escapable (s : TokenizerState) :
    s.step.m_escapable_chars = s.m_escapable_chars := by
  unfold TokenizerState.step; split <;> rfl

@[simp] theorem step_escape_char (s : TokenizerState) :
    s.step.m_escape_char = s.m_escape_char := by
  unfold TokenizerState.step; split <;> rfl

theorem deref_of_lt {s : TokenizerState} {ptr : Nat} (h : ptr < s.buf.length) :
    s.deref ptr = s.buf[ptr] := by
  simp [TokenizerState.deref, List.getD_eq_getElem?_getD, List.getElem?_eq_getElem h]

theorem text_of_lt {s : TokenizerState} (h : s.m_cur < s.buf.length) :
    s.text = s.buf[s.m_cur] :: s.step.text := by
  unfold TokenizerState.text
  rw [List.drop_eq_getElem_cons h, step_buf, step_m_cur]

theorem step_text (s : TokenizerState) : s.step.text = s.text.tail := by
  simp [TokenizerState.text, List.tail_drop]

theorem CurChar_eq_headD (s : TokenizerState) : CurChar s = s.text.headD NUL := by
  unfold Tokenizer.CurChar
  by_cases h : s.Eof = true
  · rw [if_pos h]
    rw [(Eof_iff_text_nil s).1 h]; rfl
  · rw [if_neg h]
    have h' : s.m_cur < s.buf.length := (Eof_eq_false_iff s).1 (by simpa using h)
    rw [text_of_lt h', TokenizerState.CurPos, deref_of_lt h']; rfl

theorem text_cons {s : TokenizerState} {c : Char} {rest : List Char} (h : s.text = c :: rest) :
    s.Eof = false ∧ CurChar s = c ∧ s.CurChar = c ∧ s.step.text = rest := by
  refine ⟨?_, ?_, ?_, ?_⟩
  · cases hE : s.Eof
    · rfl
    · rw [(Eof_iff_text_nil s).1 hE] at h; cases h
  · rw [CurChar_eq_headD, h]; rfl
  · have h' : s.m_cur < s.buf.length := by
      by_contra hc
      have : s.text = [] := by simp [TokenizerState.text]; omega
      rw [this] at h; cases h
    rw [text_of_lt h'] at h
    rw [TokenizerState.CurChar, deref_of_lt h']
    exact (List.cons.inj h).1
  · rw [step_text, h]; rfl

theorem text_nil {s : TokenizerState} (h : s.text = []) : s.Eof = true ∧ CurChar s = NUL := by
  refine ⟨(Eof_iff_text_nil s).2 h, ?_⟩
  rw [CurChar_eq_headD, h]; rfl

theorem IsDigit_NUL : IsDigit NUL = false := by decide

theorem not_eof_of_CurChar {s : TokenizerState} (h : CurChar s ≠ NUL) : s.Eof = false := by
  cases hE : s.Eof
  · rfl
  · exact absurd (by simp [Tokenizer.CurChar, hE]) h

theorem not_eof_of_IsDigit {s : TokenizerState} (h : IsDigit (CurChar s) = true) :
    s.Eof = false := by
  apply not_eof_of_CurChar
  intro hc
  rw [hc, IsDigit_NUL] at h
  cases h

theorem IsAnyOf_iff_mem (c : Char) (allow : List Char) : IsAnyOf c allow = true ↔ c ∈ allow := by
  simp [Tokenizer.IsAnyOf]
/-! ## Iterated advancing -/

theorem stepN_succ (n : Nat) (s : TokenizerState) : s.step.stepN n = (s.stepN n).step := by
  induction n generalizing s with
  | zero => rfl
  | succ n ih => simp only [TokenizerState.stepN]; exact ih s.step

theorem stepN_add (a b : Nat) (s : TokenizerState) :
    s.stepN (a + b) = (s.stepN a).stepN b := by
  induction a generalizing s with
  | zero => simp [TokenizerState.stepN]
  | succ a ih =>
    rw [Nat.succ_add]
    simp only [TokenizerState.stepN]
    exact ih s.step

@[simp] theorem stepN_buf (n : Nat) (s : TokenizerState) : (s.stepN n).buf = s.buf := by
  induction n generalizing s with
  | zero => rfl
  | succ n ih => simp [TokenizerState.stepN, ih]

@[simp] theorem stepN_m_cur (n : Nat) (s : TokenizerState) :
    (s.stepN n).m_cur = s.m_cur + n := by
  induction n generalizing s with
  | zero => rfl
  | succ n ih => simp [TokenizerState.stepN, ih]; omega

@[simp] theorem stepN_escapable (n : Nat) (s : TokenizerState) :
    (s.stepN n).m_escapable_chars = s.m_escapable_chars := by
  induction n generalizing s with
  | zero => rfl
  | succ n ih => simp [TokenizerState.stepN, ih]

@[simp] theorem stepN_escape_char (n : Nat) (s : TokenizerState) :
    (s.stepN n).m_escape_char = s.m_escape_char := by
  induction n generalizing s with
  | zero => rfl
  | succ n ih => simp [TokenizerState.stepN, ih]

theorem stepN_text (n : Nat) (s : TokenizerState) : (s.stepN n).text = s.text.drop n := by
  simp [TokenizerState.text, Nat.add_comm]

theorem AdvanceN_eq_stepN (n : Nat) (s : TokenizerState) (h : s.m_cur + n ≤ s.buf.length) :
    s.AdvanceN n = (.ok (), s.stepN n) := by
  induction n generalizing s with
  | zero => rfl
  | succ n ih =>
    have hE : s.Eof = false := (Eof_eq_false_iff s).2 (by omega)
    simp only [TokenizerState.AdvanceN, Advance_of_not_eof hE, Outcome.bind_ok,
      TokenizerState.stepN]
    exact ih s.step (by simp; omega)

/-! ## The digit loop -/

theorem text_length (s : TokenizerState) : s.text.length = s.buf.length - s.m_cur := by
  simp [TokenizerState.text]

theorem text_of_not_eof {s : TokenizerState} (h : s.Eof = false) :
    s.text = CurChar s :: s.step.text := by
  have hlt := (Eof_eq_false_iff s).1 h
  rw [text_of_lt hlt]
  simp [Tokenizer.CurChar, h, TokenizerState.CurPos, deref_of_lt hlt]

theorem ReadDigitsLoop_run (fuel : Nat) (s : TokenizerState) :
    ∃ k, k ≤ fuel ∧ k ≤ s.text.length ∧ (∀ d ∈ s.text.take k, IsDigit d = true) ∧
      ReadDigitsLoop fuel s = (.ok (), s.stepN k) := by
  induction fuel generalizing s with
  | zero => exact ⟨0, le_refl _, by simp, by simp, rfl⟩
  | succ fuel ih =>
    unfold Tokenizer.ReadDigitsLoop
    by_cases hc : (!s.Eof && IsDigit (CurChar s)) = true
    · rw [if_pos hc]
      simp only [Bool.and_eq_true, Bool.not_eq_true'] at hc
      rw [Advance_of_not_eof hc.1, Outcome.bind_ok]
      obtain ⟨k, hk, hb, hd, hr⟩ := ih s.step
      refine ⟨k + 1, by omega, ?_, ?_, ?_⟩
      · rw [text_of_not_eof hc.1]; simpa using hb
      · rw [text_of_not_eof hc.1]
        intro d hd'
        simp only [List.take_succ_cons, List.mem_cons] at hd'
        rcases hd' with rfl | hd'
        · exact hc.2
        · exact hd d hd'
      · rw [hr]; rfl
    · rw [if_neg hc]
      exact ⟨0, by omega, by simp, by simp, rfl⟩

theorem ReadDigitsLoop_spec (ds rest : List Char) (hds : ∀ c ∈ ds, IsDigit c = true)
    (fuel : Nat) (s : TokenizerState) (ht : s.text = ds ++ rest)
    (hrest : ∀ c ∈ rest.head?, IsDigit c = false) (hfuel : ds.length ≤ fuel) :
    ReadDigitsLoop fuel s = (.ok (), s.stepN ds.length) := by
  induction ds generalizing fuel s with
  | nil =>
    cases fuel with
    | zero => rfl
    | succ fuel =>
      unfold Tokenizer.ReadDigitsLoop
      have : (!s.Eof && IsDigit (CurChar s)) = false := by
        cases rest with
        | nil => simp [(text_nil (by simpa using ht)).1]
        | cons c rest =>
          have h := text_cons (by simpa using ht : s.text = c :: rest)
          simp [h.2.1, hrest c (by simp)]
      simp [this, TokenizerState.stepN]
  | cons d ds ih =>
    cases fuel with
    | zero => simp at hfuel
    | succ fuel =>
      have h := text_cons (by simpa using ht : s.text = d :: (ds ++ rest))
      unfold Tokenizer.ReadDigitsLoop
      have hc : (!s.Eof && IsDigit (CurChar s)) = true := by
        simp [h.1, h.2.1, hds d (by simp)]
      rw [if_pos hc, Advance_of_not_eof h.1, Outcome.bind_ok]
      rw [ih (fun c hc => hds c (by simp [hc])) fuel s.step h.2.2.2 (by simpa using hfuel)]
      rfl
theorem ReadDigits_run (s : TokenizerState) :
    ∃ k, k ≤ s.text.length ∧ (∀ d ∈ s.text.take k, IsDigit d = true) ∧
      ReadDigits s = (.ok (), s.stepN k) := by
  obtain ⟨k, -, hb, hd, hr⟩ := ReadDigitsLoop_run (s.End - s.m_cur) s
  exact ⟨k, hb, hd, hr⟩

theorem Advance_ReadDigits_run {s : TokenizerState} (hE : s.Eof = false) :
    ∃ k, k + 1 ≤ s.text.length ∧ (∀ d ∈ s.step.text.take k, IsDigit d = true) ∧
      (s.Advance).bind (fun _ t => ReadDigits t) = (.ok (), s.stepN (k + 1)) := by
  rw [Advance_of_not_eof hE, Outcome.bind_ok]
  obtain ⟨k, hb, hd, hr⟩ := ReadDigits_run s.step
  refine ⟨k, ?_, hd, ?_⟩
  · rw [text_of_not_eof hE]; simpa using hb
  · rw [hr]; rfl

/-! ## The shape of every run of the numeric recognizers -/

theorem ReadInteger_cases (delims : List Char) (s : TokenizerState) :
    ReadInteger delims s = (.ok none, s) ∨
    ∃ k c rest, s.text = c :: rest ∧ (c = '+' ∨ c = '-' ∨ IsDigit c = true) ∧
      k ≤ rest.length ∧ (∀ d ∈ rest.take k, IsDigit d = true) ∧
      ReadInteger delims s = (.ok (some (s.m_cur + (k + 1))), s.stepN (k + 1)) ∧
      ((s.stepN (k + 1)).Eof = true ∨ IsAnyOf (CurChar (s.stepN (k + 1))) delims = true) := by
  unfold Tokenizer.ReadInteger
  by_cases h0 : CurChar s ≠ '+' ∧ CurChar s ≠ '-' ∧ ¬ IsDigit (CurChar s) = true
  · left; rw [if_pos h0]
  · rw [if_neg h0]
    have hlead : CurChar s = '+' ∨ CurChar s = '-' ∨ IsDigit (CurChar s) = true := by
      by_contra hc
      simp only [not_or] at hc
      exact h0 ⟨hc.1, hc.2.1, hc.2.2⟩
    have hE : s.Eof = false := by
      rcases hlead with h | h | h
      · exact not_eof_of_CurChar (by rw [h]; decide)
      · exact not_eof_of_CurChar (by rw [h]; decide)
      · exact not_eof_of_IsDigit h
    have ht := text_of_not_eof hE
    have hpos : 0 < s.End - s.m_cur := by
      have := (Eof_eq_false_iff s).1 hE
      simp only [TokenizerState.End]; omega
    -- both the sign branch and the first digit amount to one step, then the digit loop
    have hrun : ∃ k, k ≤ s.step.text.length ∧ (∀ d ∈ s.step.text.take k, IsDigit d = true) ∧
        ∀ F : Unit → TokenizerState → Outcome ParserException (Option Nat),
        ((if CurChar s = '+' ∨ CurChar s = '-' then s.Advance else (.ok (), s)).bind fun _ s1 =>
          (ReadDigitsLoop (s1.End - s1.m_cur) s1).bind F) = F () (s.stepN (k + 1)) := by
      by_cases h1 : CurChar s = '+' ∨ CurChar s = '-'
      · obtain ⟨k, -, hb, hd, hr⟩ := ReadDigitsLoop_run (s.step.End - s.step.m_cur) s.step
        refine ⟨k, hb, hd, fun F => ?_⟩
        rw [if_pos h1, Advance_of_not_eof hE, Outcome.bind_ok, hr]; rfl
      · have hdig : IsDigit (CurChar s) = true := by
          rcases hlead with h | h | h
          · exact absurd (Or.inl h) h1
          · exact absurd (Or.inr h) h1
          · exact h
        obtain ⟨n, hn⟩ := Nat.exists_eq_succ_of_ne_zero (Nat.pos_iff_ne_zero.1 hpos)
        obtain ⟨k, -, hb, hd, hr⟩ := ReadDigitsLoop_run n s.step
        refine ⟨k, hb, hd, fun F => ?_⟩
        rw [if_neg h1, Outcome.bind_ok, hn]
        unfold Tokenizer.ReadDigitsLoop
        rw [if_pos (by simp [hE, hdig]), Advance_of_not_eof hE, Outcome.bind_ok, hr]; rfl
    obtain ⟨k, hb, hd, hr⟩ := hrun
    simp only [hr]
    by_cases h2 : (s.stepN (k + 1)).Eof = true ∨ IsAnyOf (CurChar (s.stepN (k + 1))) delims = true
    · right
      refine ⟨k, CurChar s, s.step.text, ht, hlead, hb, hd, ?_, h2⟩
      rw [if_pos h2]; simp [TokenizerState.CurPos]
    · left; rw [if_neg h2]

theorem not_eof_of_lead {s : TokenizerState}
    (h : CurChar s = '+' ∨ CurChar s = '-' ∨ CurChar s = '.' ∨ CurChar s = 'e' ∨
      IsDigit (CurChar s) = true) : s.Eof = false := by
  rcases h with h | h | h | h | h
  · exact not_eof_of_CurChar (by rw [h]; decide)
  · exact not_eof_of_CurChar (by rw [h]; decide)
  · exact not_eof_of_CurChar (by rw [h]; decide)
  · exact not_eof_of_CurChar (by rw [h]; decide)
  · exact not_eof_of_IsDigit h

theorem ReadDecimal_cases (delims : List Char) (s : TokenizerState) :
    ReadDecimal delims s = (.ok none, s) ∨
    ∃ k, k ≤ s.text.length ∧
      ReadDecimal delims s = (.ok (some (s.m_cur + k)), s.stepN k) ∧
      ((s.stepN k).Eof = true ∨ IsAnyOf (CurChar (s.stepN k)) delims = true) := by
  unfold Tokenizer.ReadDecimal
  by_cases h0 : CurChar s ≠ '+' ∧ CurChar s ≠ '-' ∧ CurChar s ≠ '.' ∧ ¬ IsDigit (CurChar s) = true
  · left; rw [if_pos h0]
  · rw [if_neg h0]
    -- the integer part
    have hB1 : ∃ a, a ≤ s.text.length ∧
        (if CurChar s ≠ '.' then (s.Advance).bind (fun _ t => ReadDigits t) else (.ok (), s))
          = (.ok (), s.stepN a) := by
      by_cases h1 : CurChar s ≠ '.'
      · have hE : s.Eof = false := by
          apply not_eof_of_lead
          by_contra hc
          simp only [not_or] at hc
          exact h0 ⟨hc.1, hc.2.1, h1, hc.2.2.2.2⟩
        obtain ⟨a, ha, -, hr⟩ := Advance_ReadDigits_run hE
        exact ⟨a + 1, ha, by rw [if_pos h1, hr]⟩
      · exact ⟨0, by simp, by rw [if_neg h1]; rfl⟩
    obtain ⟨a, ha, h1⟩ := hB1
    -- the fraction
    have hB2 : ∀ t : TokenizerState, ∃ b, b ≤ t.text.length ∧
        (if CurChar t = '.' then (t.Advance).bind (fun _ u => ReadDigits u) else (.ok (), t))
          = (.ok (), t.stepN b) := by
      intro t
      by_cases h2 : CurChar t = '.'
      · obtain ⟨b, hb, -, hr⟩ :=
          Advance_ReadDigits_run (not_eof_of_lead (Or.inr (Or.inr (Or.inl h2))))
        exact ⟨b + 1, hb, by rw [if_pos h2, hr]⟩
      · exact ⟨0, by simp, by rw [if_neg h2]; rfl⟩
    obtain ⟨b, hb, h2⟩ := hB2 (s.stepN a)
    -- the exponent
    have hB3 : ∀ t : TokenizerState, ∃ c, c ≤ t.text.length ∧
        (if CurChar t = 'e' then
          (t.Advance).bind fun _ u =>
            if CurChar u = '+' ∨ CurChar u = '-' ∨ IsDigit (CurChar u) = true then
              (u.Advance).bind (fun _ v => ReadDigits v)
            else (.ok (), u)
         else (.ok (), t)) = (.ok (), t.stepN c) := by
      intro t
      by_cases h3 : CurChar t = 'e'
      · have hE : t.Eof = false := not_eof_of_lead (Or.inr (Or.inr (Or.inr (Or.inl h3))))
        have hlt := (Eof_eq_false_iff t).1 hE
        have htl := text_length t
        rw [if_pos h3, Advance_of_not_eof hE, Outcome.bind_ok]
        by_cases h4 : CurChar t.step = '+' ∨ CurChar t.step = '-' ∨ IsDigit (CurChar t.step) = true
        · have hE' : t.step.Eof = false := by
            apply not_eof_of_lead
            rcases h4 with h | h | h
            · exact Or.inl h
            · exact Or.inr (Or.inl h)
            · exact Or.inr (Or.inr (Or.inr (Or.inr h)))
          obtain ⟨c, hc, -, hr⟩ := Advance_ReadDigits_run hE'
          refine ⟨c + 1 + 1, ?_, ?_⟩
          · rw [text_length] at hc; simp at hc; omega
          · rw [if_pos h4, hr]; rfl
        · exact ⟨1, by omega, by rw [if_neg h4]; rfl⟩
      · exact ⟨0, by simp, by rw [if_neg h3]; rfl⟩
    obtain ⟨c, hc, h3⟩ := hB3 ((s.stepN a).stepN b)
    simp only [h1, Outcome.bind_ok, h2, h3]
    rw [← stepN_add, ← stepN_add]
    by_cases h5 : (s.stepN (a + (b + c))).Eof = true ∨
        IsAnyOf (CurChar (s.stepN (a + (b + c)))) delims = true
    · right
      refine ⟨a + (b + c), ?_, ?_, h5⟩
      · rw [text_length] at ha hb hc ⊢; simp at hb hc; omega
      · rw [if_pos h5]; simp [TokenizerState.CurPos]
    · left; rw [if_neg h5]
theorem CurChar_of_not_eof {s : TokenizerState} (h : s.Eof = false) :
    s.buf[s.m_cur]? = some (CurChar s) := by
  have hlt := (Eof_eq_false_iff s).1 h
  simp [Tokenizer.CurChar, h, TokenizerState.CurPos, deref_of_lt hlt, List.getElem?_eq_getElem hlt]

theorem AtTerminator_of_test {s : TokenizerState} {delims : List Char}
    (h : s.Eof = true ∨ IsAnyOf (CurChar s) delims = true) : s.AtTerminator delims := by
  cases hE : s.Eof
  · right
    rcases h with h | h
    · rw [hE] at h; cases h
    · exact ⟨CurChar s, (IsAnyOf_iff_mem _ _).1 h, CurChar_of_not_eof hE⟩
  · left; exact (Eof_eq_true_iff s).1 hE

/-! ## Rollback and the integer grammar -/

/-- C1 (rollback of the numeric recognizers).  Whatever the buffer, the cursor
state `s` and the delimiter set, a call of `ReadInteger` or of `ReadDecimal`
returns (it does not throw); if it returns no match, the state it leaves is
exactly `s`, with position, line, column and escape flag unchanged; if it
returns a position, that position is the cursor position of the state it
leaves, and the cursor is at the end of the buffer or on a member of `delims`. -/
theorem numeric_rollback (delims : List Char) (s : TokenizerState)
    (r : Except ParserException (Option Nat)) (s' : TokenizerState)
    (hcall : ReadInteger delims s = (r, s') ∨ ReadDecimal delims s = (r, s')) :
    (∃ v, r = .ok v) ∧
    (r = .ok none → s' = s) ∧
    (∀ p, r = .ok (some p) → p = s'.m_cur ∧ s'.AtTerminator delims) := by
  have key : (r, s') = (.ok none, s) ∨
      ∃ k, (r, s') = (.ok (some (s.m_cur + k)), s.stepN k) ∧
        ((s.stepN k).Eof = true ∨ IsAnyOf (CurChar (s.stepN k)) delims = true) := by
    rcases hcall with h | h
    · rcases ReadInteger_cases delims s with h1 | ⟨k, -, -, -, -, -, -, h1, h2⟩
      · left; rw [← h, h1]
      · right; exact ⟨k + 1, by rw [← h, h1], h2⟩
    · rcases ReadDecimal_cases delims s with h1 | ⟨k, -, h1, h2⟩
      · left; rw [← h, h1]
      · right; exact ⟨k, by rw [← h, h1], h2⟩
  rcases key with h | ⟨k, h, ht⟩
  · obtain ⟨rfl, rfl⟩ := Prod.mk.inj h
    exact ⟨⟨none, rfl⟩, fun _ => rfl, fun p hp => by cases hp⟩
  · obtain ⟨rfl, rfl⟩ := Prod.mk.inj h
    refine ⟨⟨_, rfl⟩, fun hn => (by cases hn), fun p hp => ?_⟩
    cases hp
    exact ⟨by simp, AtTerminator_of_test ht⟩

/-- Witness for C1: on the buffer `12x` with delimiter `,` the integer
recognizer rejects and the state is the one before the call. -/
theorem numeric_rollback_witness :
    ReadInteger [','] (TokenizerState.new ['1', '2', 'x'] ['"'] '\\') =
        (.ok none, TokenizerState.new ['1', '2', 'x'] ['"'] '\\') ∧
      ((.ok none : Except ParserException (Option Nat)) = .ok none →
        TokenizerState.new ['1', '2', 'x'] ['"'] '\\' =
          TokenizerState.new ['1', '2', 'x'] ['"'] '\\') :=
  ⟨rfl, (numeric_rollback [','] (TokenizerState.new ['1', '2', 'x'] ['"'] '\\') (.ok none)
    (TokenizerState.new ['1', '2', 'x'] ['"'] '\\') (Or.inl rfl)).2.1⟩
/-- Counterexample to C2 as stated: on the buffer `+,` with delimiter `,` the
integer recognizer accepts at offset 1, and the text it consumed, a bare `+`,
has no digit. -/
theorem ReadInteger_accepts_bare_sign :
    ReadInteger [','] (TokenizerState.new ['+', ','] ['"'] '\\') =
        (.ok (some 1), (TokenizerState.new ['+', ','] ['"'] '\\').stepN 1) ∧
      ¬ IntegerGrammar ((TokenizerState.new ['+', ','] ['"'] '\\').slice 0 1) := by
  refine ⟨rfl, ?_⟩
  rintro ⟨sign, digits, h, hs, hne, hd⟩
  have h' : ['+'] = sign ++ digits := h
  rcases hs with rfl | rfl | rfl
  · have : digits = ['+'] := by simpa using h'.symm
    subst this
    exact absurd (hd '+' (by simp)) (by decide)
  · have : digits = [] := by simpa using h'.symm
    exact hne this
  · simp at h'

/-- C2, amended (soundness of the integer recognizer).  Whenever `ReadInteger`
accepts, it has consumed at least one character, the characters from the
position before the call to the returned position all lie in the buffer, the
first of them is `+`, `-` or a decimal digit, and all the others are decimal
digits: the text is one or more digits, or a sign followed by zero or more
digits. -/
theorem ReadInteger_sound (delims : List Char) (s s' : TokenizerState) (p : Nat)
    (h : ReadInteger delims s = (.ok (some p), s')) :
    ∃ c ds, s.slice s.m_cur p = c :: ds ∧ p = s.m_cur + (ds.length + 1) ∧
      p ≤ s.buf.length ∧
      (c = '+' ∨ c = '-' ∨ IsDigit c = true) ∧ ∀ d ∈ ds, IsDigit d = true := by
  rcases ReadInteger_cases delims s with h1 | ⟨k, c, rest, ht, hc, hk, hd, h1, -⟩
  · rw [h1] at h; cases h
  · rw [h1] at h
    obtain ⟨hp, -⟩ := Prod.mk.inj h
    have hp' : s.m_cur + (k + 1) = p := by simpa using hp
    have hlen := text_length s
    rw [ht] at hlen
    simp only [List.length_cons] at hlen
    refine ⟨c, rest.take k, ?_, ?_, ?_, hc, hd⟩
    · have : s.slice s.m_cur p = s.text.take (k + 1) := by
        simp [TokenizerState.slice, TokenizerState.text, ← hp']
      rw [this, ht]; rfl
    · simp [List.length_take, Nat.min_eq_left hk, ← hp']
    · omega

/-- Witness for the amended C2: on `123,` the recognizer accepts at offset 3. -/
theorem ReadInteger_sound_witness :
    ReadInteger [','] (TokenizerState.new ['1', '2', '3', ','] ['"'] '\\') =
        (.ok (some 3), (TokenizerState.new ['1', '2', '3', ','] ['"'] '\\').stepN 3) ∧
      ∃ c ds, (TokenizerState.new ['1', '2', '3', ','] ['"'] '\\').slice
          (TokenizerState.new ['1', '2', '3', ','] ['"'] '\\').m_cur 3 = c :: ds ∧
        3 = (TokenizerState.new ['1', '2', '3', ','] ['"'] '\\').m_cur + (ds.length + 1) ∧
        3 ≤ (TokenizerState.new ['1', '2', '3', ','] ['"'] '\\').buf.length ∧
        (c = '+' ∨ c = '-' ∨ IsDigit c = true) ∧ ∀ d ∈ ds, IsDigit d = true :=
  ⟨rfl, ReadInteger_sound [','] (TokenizerState.new ['1', '2', '3', ','] ['"'] '\\')
    ((TokenizerState.new ['1', '2', '3', ','] ['"'] '\\').stepN 3) 3 rfl⟩
theorem step_line_column {s : TokenizerState} (h : s.CurChar ≠ '\n') :
    s.step.m_line = s.m_line ∧ s.step.m_column = s.m_column + 1 := by
  unfold TokenizerState.step
  rw [if_neg h]
  exact ⟨rfl, rfl⟩

theorem stepN_line_column (n : Nat) (s : TokenizerState) (hn : n ≤ s.text.length)
    (h : ∀ c ∈ s.text.take n, c ≠ '\n') :
    (s.stepN n).m_line = s.m_line ∧ (s.stepN n).m_column = s.m_column + n := by
  induction n generalizing s with
  | zero => exact ⟨rfl, rfl⟩
  | succ n ih =>
    cases ht : s.text with
    | nil => rw [ht] at hn; simp at hn
    | cons c rest =>
      rw [ht] at hn h
      obtain ⟨-, -, hc, hstep⟩ := text_cons ht
      have h1 := step_line_column (s := s) (by rw [hc]; exact h c (by simp))
      have h2 := ih s.step (by rw [hstep]; simpa using hn)
        (fun d hd => h d (by rw [hstep] at hd; simp [hd]))
      simp only [TokenizerState.stepN]
      rw [h2.1, h2.2, h1.1, h1.2]
      exact ⟨rfl, by omega⟩

theorem terminator_test {s : TokenizerState} {delims : List Char}
    (h : s.text = [] ∨ ∃ t tl, s.text = t :: tl ∧ t ∈ delims) :
    s.Eof = true ∨ IsAnyOf (CurChar s) delims = true := by
  rcases h with h | ⟨t, tl, h, ht⟩
  · exact Or.inl (text_nil h).1
  · right
    rw [(text_cons h).2.1]
    exact (IsAnyOf_iff_mem _ _).2 ht

theorem IsDigit_ne {c d : Char} (hc : IsDigit c = true) (hd : IsDigit d = false) : c ≠ d := by
  rintro rfl
  rw [hc] at hd
  cases hd

/-- C3 (completeness of the integer recognizer).  If the text at the cursor is
an optional `+` or `-`, then one or more digits, then either the end of the
buffer or a character that is not a digit and is a member of `delims`, then
`ReadInteger` accepts and returns the position of that terminator; the cursor
is left on it, the line is unchanged and the column has grown by the number of
characters consumed. -/
theorem ReadInteger_complete (delims : List Char) (s : TokenizerState)
    (sign digits rest : List Char) (ht : s.text = sign ++ digits ++ rest)
    (hs : OptSign sign) (hd : Digits digits)
    (hr : rest = [] ∨ ∃ t tl, rest = t :: tl ∧ IsDigit t = false ∧ t ∈ delims) :
    ∃ s', ReadInteger delims s = (.ok (some (s.m_cur + (sign.length + digits.length))), s') ∧
      s'.m_cur = s.m_cur + (sign.length + digits.length) ∧
      s'.text = rest ∧
      s'.buf = s.buf ∧
      s'.m_line = s.m_line ∧
      s'.m_column = s.m_column + (sign.length + digits.length) := by
  obtain ⟨hne, hdig⟩ := hd
  have hrest : ∀ c ∈ rest.head?, IsDigit c = false := by
    rcases hr with rfl | ⟨t, tl, rfl, h, -⟩
    · simp
    · simpa using h
  have hlen : sign.length + digits.length ≤ s.text.length := by
    rw [ht]; simp
  have hnl : ∀ c ∈ s.text.take (sign.length + digits.length), c ≠ '\n' := by
    intro c hc
    have : c ∈ sign ++ digits := by
      rw [ht, ← List.length_append, List.take_left] at hc
      exact hc
    rcases List.mem_append.1 this with h | h
    · rcases hs with rfl | rfl | rfl
      · cases h
      · rw [List.mem_singleton.1 h]; decide
      · rw [List.mem_singleton.1 h]; decide
    · exact IsDigit_ne (hdig c h) (by decide)
  have hfin : (s.stepN (sign.length + digits.length)).Eof = true ∨
      IsAnyOf (CurChar (s.stepN (sign.length + digits.length))) delims = true := by
    apply terminator_test
    rw [stepN_text, ht, ← List.length_append, List.drop_left]
    rcases hr with h | ⟨t, tl, h, -, hm⟩
    · exact Or.inl h
    · exact Or.inr ⟨t, tl, h, hm⟩
  have hlc := stepN_line_column _ s hlen hnl
  refine ⟨s.stepN (sign.length + digits.length), ?_, by simp, ?_, by simp, hlc.1, hlc.2⟩
  swap
  · rw [stepN_text, ht, ← List.length_append, List.drop_left]
  -- the run of the code
  obtain ⟨d, ds, rfl⟩ := List.exists_cons_of_ne_nil hne
  have hd0 : IsDigit d = true := hdig d (by simp)
  have hloop : ∀ u : TokenizerState, u.text = d :: ds ++ rest →
      ReadDigitsLoop (u.End - u.m_cur) u = (.ok (), u.stepN (d :: ds).length) := by
    intro u hu
    apply ReadDigitsLoop_spec (d :: ds) rest hdig _ u hu hrest
    have := text_length u
    rw [hu] at this
    simp only [TokenizerState.End]
    rw [← this]; simp
  unfold Tokenizer.ReadInteger
  rcases hs with rfl | rfl | rfl
  · have hu : s.text = d :: ds ++ rest := by simpa using ht
    have hc := (text_cons (by simpa using hu : s.text = d :: (ds ++ rest))).2.1
    have hp : CurChar s ≠ '+' := by rw [hc]; exact IsDigit_ne hd0 (by decide)
    have hm : CurChar s ≠ '-' := by rw [hc]; exact IsDigit_ne hd0 (by decide)
    rw [if_neg (by rw [hc]; simp [hd0]), if_neg (by simp [hp, hm]), Outcome.bind_ok,
      hloop s hu, Outcome.bind_ok]
    simp only [List.length_nil, Nat.zero_add] at hfin ⊢
    rw [if_pos hfin]
    simp [TokenizerState.CurPos]
  · have hc := text_cons (by simpa using ht : s.text = '+' :: (d :: ds ++ rest))
    rw [if_neg (by rw [hc.2.1]; simp), if_pos (Or.inl hc.2.1), Advance_of_not_eof hc.1,
      Outcome.bind_ok, hloop s.step hc.2.2.2, Outcome.bind_ok]
    have he : s.step.stepN (d :: ds).length = s.stepN ([('+' : Char)].length + (d :: ds).length) := by
      rw [Nat.add_comm]; rfl
    rw [he, if_pos hfin]
    simp [TokenizerState.CurPos]
  · have hc := text_cons (by simpa using ht : s.text = '-' :: (d :: ds ++ rest))
    rw [if_neg (by rw [hc.2.1]; simp), if_pos (Or.inr hc.2.1), Advance_of_not_eof hc.1,
      Outcome.bind_ok, hloop s.step hc.2.2.2, Outcome.bind_ok]
    have he : s.step.stepN (d :: ds).length = s.stepN ([('-' : Char)].length + (d :: ds).length) := by
      rw [Nat.add_comm]; rfl
    rw [he, if_pos hfin]
    simp [TokenizerState.CurPos]

/-- Witness for C3: `ReadInteger(",")` on `123,` returns offset 3 and leaves the
cursor on the comma, on line 1 and in column 4. -/
theorem ReadInteger_complete_witness :
    ∃ s', ReadInteger [','] (TokenizerState.new ['1', '2', '3', ','] ['"'] '\\') =
        (.ok (some 3), s') ∧
      s'.m_cur = 3 ∧ s'.text = [','] ∧ s'.buf = ['1', '2', '3', ','] ∧
      s'.m_line = 1 ∧ s'.m_column = 4 :=
  ReadInteger_complete [','] (TokenizerState.new ['1', '2', '3', ','] ['"'] '\\')
    [] ['1', '2', '3'] [','] rfl (Or.inl rfl) ⟨by simp, by decide⟩
    (Or.inr ⟨',', [], rfl, by decide, by simp⟩)

/-! ## The three phases of the decimal recognizer -/

theorem ReadDigits_spec (ds tail : List Char) (hds : ∀ c ∈ ds, IsDigit c = true)
    (s : TokenizerState) (ht : s.text = ds ++ tail)
    (htail : ∀ c ∈ tail.head?, IsDigit c = false) :
    ReadDigits s = (.ok (), s.stepN ds.length) := by
  apply ReadDigitsLoop_spec ds tail hds _ s ht htail
  have := text_length s
  rw [ht] at this
  simp only [TokenizerState.End]
  rw [← this]; simp

theorem Advance_ReadDigits_spec (c : Char) (ds tail : List Char)
    (hds : ∀ c ∈ ds, IsDigit c = true) (s : TokenizerState) (ht : s.text = c :: (ds ++ tail))
    (htail : ∀ c ∈ tail.head?, IsDigit c = false) :
    (s.Advance).bind (fun _ t => ReadDigits t) = (.ok (), s.stepN (ds.length + 1)) := by
  have h := text_cons ht
  rw [Advance_of_not_eof h.1, Outcome.bind_ok, ReadDigits_spec ds tail hds s.step h.2.2.2 htail]
  rfl

theorem CurChar_of_text {s : TokenizerState} {P : Char → Prop} (hN : P NUL)
    (h : ∀ c ∈ s.text.head?, P c) : P (CurChar s) := by
  rw [CurChar_eq_headD]
  cases hc : s.text with
  | nil => exact hN
  | cons c rest => exact h c (by rw [hc]; simp)

/-- A sign or a first digit, then digits: the shape both `Advance(); ReadDigits();`
blocks of the recognizer consume. -/
theorem sign_digits_shape {sign ds : List Char} (hs : OptSign sign)
    (hds : ∀ d ∈ ds, IsDigit d = true) (hne : sign ≠ [] ∨ ds ≠ []) :
    ∃ c cs, sign ++ ds = c :: cs ∧ (c = '+' ∨ c = '-' ∨ IsDigit c = true) ∧
      ∀ d ∈ cs, IsDigit d = true := by
  rcases hs with rfl | rfl | rfl
  · rcases hne with h | h
    · exact absurd rfl h
    · obtain ⟨d, ds', rfl⟩ := List.exists_cons_of_ne_nil h
      exact ⟨d, ds', rfl, Or.inr (Or.inr (hds d (by simp))), fun x hx => hds x (by simp [hx])⟩
  · exact ⟨'+', ds, rfl, Or.inl rfl, hds⟩
  · exact ⟨'-', ds, rfl, Or.inr (Or.inl rfl), hds⟩

theorem lead_ne {c : Char} (hc : c = '+' ∨ c = '-' ∨ IsDigit c = true) :
    c ≠ '.' ∧ c ≠ 'e' ∧ c ≠ NUL := by
  rcases hc with rfl | rfl | h
  · decide
  · decide
  · exact ⟨IsDigit_ne h (by decide), IsDigit_ne h (by decide), IsDigit_ne h (by decide)⟩

theorem ReadDecimal_phase1 (s : TokenizerState) (sign ip tail : List Char)
    (ht : s.text = sign ++ ip ++ tail) (hs : OptSign sign) (hip : ∀ d ∈ ip, IsDigit d = true)
    (htail : ∀ c ∈ tail.head?, IsDigit c = false)
    (hne : (sign ≠ [] ∨ ip ≠ []) ∨ tail.head? = some '.') :
    (if CurChar s ≠ '.' then (s.Advance).bind (fun _ t => ReadDigits t) else (.ok (), s))
      = (.ok (), s.stepN (sign.length + ip.length)) := by
  by_cases hne' : sign ≠ [] ∨ ip ≠ []
  · obtain ⟨c, cs, he, hc, hcs⟩ := sign_digits_shape hs hip hne'
    have ht' : s.text = c :: (cs ++ tail) := by rw [ht, he]; rfl
    rw [if_pos (by rw [(text_cons ht').2.1]; exact (lead_ne hc).1),
      Advance_ReadDigits_spec c cs tail hcs s ht' htail]
    have : cs.length + 1 = sign.length + ip.length := by
      rw [← List.length_append, he]; rfl
    rw [this]
  · have hdot : tail.head? = some '.' := hne.resolve_left hne'
    simp only [not_or, not_not] at hne'
    obtain ⟨rfl, rfl⟩ := hne'
    obtain ⟨tl, rfl⟩ : ∃ tl, tail = '.' :: tl := by
      cases tail with
      | nil => simp at hdot
      | cons x tl => simp at hdot; exact ⟨tl, by rw [hdot]⟩
    rw [if_neg (by rw [(text_cons (by simpa using ht : s.text = '.' :: tl)).2.1]; simp)]
    rfl

theorem ReadDecimal_phase2 (s : TokenizerState) (frac tail : List Char)
    (ht : s.text = frac ++ tail)
    (h : (frac = [] ∧ ∀ c ∈ tail.head?, c ≠ '.') ∨
      (∃ fp, frac = '.' :: fp ∧ (∀ d ∈ fp, IsDigit d = true) ∧
        ∀ c ∈ tail.head?, IsDigit c = false)) :
    (if CurChar s = '.' then (s.Advance).bind (fun _ t => ReadDigits t) else (.ok (), s))
      = (.ok (), s.stepN frac.length) := by
  rcases h with ⟨rfl, hd⟩ | ⟨fp, rfl, hfp, htail⟩
  · have : CurChar s ≠ '.' := by
      apply CurChar_of_text (P := fun c => c ≠ '.') (by decide)
      rw [ht]; exact hd
    rw [if_neg this]; rfl
  · have ht' : s.text = '.' :: (fp ++ tail) := by rw [ht]; rfl
    rw [if_pos (text_cons ht').2.1, Advance_ReadDigits_spec '.' fp tail hfp s ht' htail]
    rfl

theorem ReadDecimal_phase3 (s : TokenizerState) (expo tail : List Char)
    (ht : s.text = expo ++ tail) (he : OptExponent expo)
    (h1 : ∀ c ∈ tail.head?, c ≠ 'e') (h2 : ∀ c ∈ tail.head?, IsDigit c = false) :
    (if CurChar s = 'e' then
      (s.Advance).bind fun _ t =>
        if CurChar t = '+' ∨ CurChar t = '-' ∨ IsDigit (CurChar t) = true then
          (t.Advance).bind (fun _ u => ReadDigits u)
        else (.ok (), t)
     else (.ok (), s)) = (.ok (), s.stepN expo.length) := by
  rcases he with rfl | ⟨es, ed, hes, ⟨hne, hed⟩, rfl⟩
  · have : CurChar s ≠ 'e' := by
      apply CurChar_of_text (P := fun c => c ≠ 'e') (by decide)
      rw [ht]; exact h1
    rw [if_neg this]; rfl
  · obtain ⟨c, cs, hshape, hc, hcs⟩ := sign_digits_shape hes hed (Or.inr hne)
    have ht' : s.text = 'e' :: (c :: (cs ++ tail)) := by
      rw [ht, hshape]; rfl
    have hs := text_cons ht'
    have hs' := text_cons hs.2.2.2
    rw [if_pos hs.2.1, Advance_of_not_eof hs.1, Outcome.bind_ok,
      if_pos (by rw [hs'.2.1]; exact hc),
      Advance_ReadDigits_spec c cs tail hcs s.step hs.2.2.2 h2]
    have : ('e' :: (es ++ ed)).length = cs.length + 1 + 1 := by
      rw [hshape]; rfl
    rw [this]; rfl

theorem head?_append_of_ne_nil {α : Type} {l : List α} (t : List α) (h : l ≠ []) :
    (l ++ t).head? = l.head? := by
  cases l with
  | nil => exact absurd rfl h
  | cons a l => rfl

/-- C4 (decimal acceptance).  If the text at the cursor is a literal of the form
`[sign] (digits ['.' [digits]] | '.' digits) ['e' [sign] digits]` followed by
the end of the buffer or by a member of `delims` that is not a digit, `.` or
`e`, then `ReadDecimal` accepts, consumes the whole literal and returns the
position of the terminator.  If the current character is not a sign, a digit
or `.`, then `ReadDecimal` rejects and the state is unchanged. -/
theorem ReadDecimal_accepts (delims : List Char) (s : TokenizerState) :
    (∀ lit rest : List Char, s.text = lit ++ rest → DecimalGrammar lit →
      (rest = [] ∨ ∃ t tl, rest = t :: tl ∧ t ∈ delims ∧
        IsDigit t = false ∧ t ≠ '.' ∧ t ≠ 'e') →
      ∃ s', ReadDecimal delims s = (.ok (some (s.m_cur + lit.length)), s') ∧
        s'.m_cur = s.m_cur + lit.length ∧ s'.text = rest ∧ s'.buf = s.buf) ∧
    (CurChar s ≠ '+' → CurChar s ≠ '-' → CurChar s ≠ '.' → IsDigit (CurChar s) = false →
      ReadDecimal delims s = (.ok none, s)) := by
  constructor
  swap
  · intro h1 h2 h3 h4
    unfold Tokenizer.ReadDecimal
    rw [if_pos ⟨h1, h2, h3, by simp [h4]⟩]
  intro lit rest ht ⟨sign, mant, expo, hlit, hs, hm, he⟩ hr
  -- what the terminator is not
  have hrd : ∀ c ∈ rest.head?, IsDigit c = false := by
    rcases hr with rfl | ⟨t, tl, rfl, -, h, -, -⟩
    · simp
    · simpa using h
  have hrdot : ∀ c ∈ rest.head?, c ≠ '.' := by
    rcases hr with rfl | ⟨t, tl, rfl, -, -, h, -⟩
    · simp
    · simpa using h
  have hre : ∀ c ∈ rest.head?, c ≠ 'e' := by
    rcases hr with rfl | ⟨t, tl, rfl, -, -, -, h⟩
    · simp
    · simpa using h
  -- the head of the exponent and what follows
  have hxd : ∀ c ∈ (expo ++ rest).head?, IsDigit c = false := by
    rcases he with rfl | ⟨es, ed, -, -, rfl⟩
    · simpa using hrd
    · simp; decide
  have hxdot : ∀ c ∈ (expo ++ rest).head?, c ≠ '.' := by
    rcases he with rfl | ⟨es, ed, -, -, rfl⟩
    · simpa using hrdot
    · simp
  -- the mantissa as integer part and fraction
  obtain ⟨ip, frac, hmant, hip, hfrac, hstart⟩ : ∃ ip frac, mant = ip ++ frac ∧
      (∀ d ∈ ip, IsDigit d = true) ∧
      ((frac = [] ∧ ∀ c ∈ (expo ++ rest).head?, c ≠ '.') ∨
        (∃ fp, frac = '.' :: fp ∧ (∀ d ∈ fp, IsDigit d = true) ∧
          ∀ c ∈ (expo ++ rest).head?, IsDigit c = false)) ∧
      (ip ≠ [] ∨ (frac ++ expo ++ rest).head? = some '.') := by
    rcases hm with ⟨ip, fp, ⟨hne, hip⟩, hfp, h | h⟩ | ⟨fp, ⟨hne, hfp⟩, h⟩
    · exact ⟨ip, [], by simp [h], hip, Or.inl ⟨rfl, hxdot⟩, Or.inl hne⟩
    · exact ⟨ip, '.' :: fp, h, hip, Or.inr ⟨fp, rfl, hfp, hxd⟩, Or.inl hne⟩
    · exact ⟨[], '.' :: fp, h, by simp, Or.inr ⟨fp, rfl, hfp, hxd⟩, Or.inr rfl⟩
  have hfd : ∀ c ∈ (frac ++ expo ++ rest).head?, IsDigit c = false := by
    rcases hfrac with ⟨rfl, -⟩ | ⟨fp, rfl, -, -⟩
    · simpa using hxd
    · simp; decide
  subst hmant hlit
  have ht1 : s.text = sign ++ ip ++ (frac ++ expo ++ rest) := by
    rw [ht]; simp
  have p1 := ReadDecimal_phase1 s sign ip (frac ++ expo ++ rest) ht1 hs hip hfd
    (by rcases hstart with h | h
        · exact Or.inl (Or.inr h)
        · exact Or.inr h)
  have ht2 : (s.stepN (sign.length + ip.length)).text = frac ++ (expo ++ rest) := by
    rw [stepN_text, ht1, ← List.length_append, List.drop_left]; simp
  have p2 := ReadDecimal_phase2 _ frac (expo ++ rest) ht2 hfrac
  have ht3 : ((s.stepN (sign.length + ip.length)).stepN frac.length).text = expo ++ rest := by
    rw [stepN_text, ht2, List.drop_left]
  have p3 := ReadDecimal_phase3 _ expo rest ht3 he hre hrd
  have ht4 : (((s.stepN (sign.length + ip.length)).stepN frac.length).stepN expo.length).text
      = rest := by
    rw [stepN_text, ht3, List.drop_left]
  have hfin := @terminator_test
    (((s.stepN (sign.length + ip.length)).stepN frac.length).stepN expo.length) delims
    (by rw [ht4]
        rcases hr with h | ⟨t, tl, h, hm, -⟩
        · exact Or.inl h
        · exact Or.inr ⟨t, tl, h, hm⟩)
  have hlead : ¬ (CurChar s ≠ '+' ∧ CurChar s ≠ '-' ∧ CurChar s ≠ '.' ∧
      ¬ IsDigit (CurChar s) = true) := by
    rintro ⟨hp, hm, hdot, hdig⟩
    rw [CurChar_eq_headD, ht1] at hp hm hdot hdig
    rcases hs with rfl | rfl | rfl
    · cases ip with
      | cons d ip' => exact hdig (hip d (by simp))
      | nil =>
        rcases hstart with h | h
        · exact h rfl
        · cases hf : frac ++ expo ++ rest with
          | nil => rw [hf] at h; simp at h
          | cons x xs =>
            rw [hf] at h hdot
            simp at h
            exact hdot (by simp [h])
    · exact hp rfl
    · exact hm rfl
  refine ⟨_, ?_, ?_, ht4, by simp⟩
  · unfold Tokenizer.ReadDecimal
    rw [if_neg hlead]
    simp only [p1, p2, p3, Outcome.bind_ok]
    rw [if_pos hfin]
    simp [TokenizerState.CurPos, Nat.add_assoc]
  · simp [Nat.add_assoc]

/-- Witness for C4: `ReadDecimal(",")` on `1.5e-3,` returns offset 6, on `-.5,`
it returns offset 3, and on `abc` it rejects at offset 0. -/
theorem ReadDecimal_accepts_witness :
    (∃ s', ReadDecimal [','] (TokenizerState.new ['1', '.', '5', 'e', '-', '3', ','] ['"'] '\\') =
        (.ok (some 6), s') ∧ s'.m_cur = 6 ∧ s'.text = [','] ∧
        s'.buf = ['1', '.', '5', 'e', '-', '3', ',']) ∧
    (∃ s', ReadDecimal [','] (TokenizerState.new ['-', '.', '5', ','] ['"'] '\\') =
        (.ok (some 3), s') ∧ s'.m_cur = 3 ∧ s'.text = [','] ∧ s'.buf = ['-', '.', '5', ',']) ∧
    ReadDecimal [','] (TokenizerState.new ['a', 'b', 'c'] ['"'] '\\') =
      (.ok none, TokenizerState.new ['a', 'b', 'c'] ['"'] '\\') :=
  ⟨(ReadDecimal_accepts [','] (TokenizerState.new ['1', '.', '5', 'e', '-', '3', ','] ['"'] '\\')).1
      ['1', '.', '5', 'e', '-', '3'] [','] rfl
      ⟨[], ['1', '.', '5'], ['e', '-', '3'], rfl, Or.inl rfl,
        Or.inl ⟨['1'], ['5'], ⟨by simp, by decide⟩, by decide, Or.inr rfl⟩,
        Or.inr ⟨['-'], ['3'], Or.inr (Or.inr rfl), ⟨by simp, by decide⟩, rfl⟩⟩
      (Or.inr ⟨',', [], rfl, by simp, by decide, by decide, by decide⟩),
   (ReadDecimal_accepts [','] (TokenizerState.new ['-', '.', '5', ','] ['"'] '\\')).1
      ['-', '.', '5'] [','] rfl
      ⟨['-'], ['.', '5'], [], rfl, Or.inr (Or.inr rfl),
        Or.inr ⟨['5'], ⟨by simp, by decide⟩, rfl⟩, Or.inl rfl⟩
      (Or.inr ⟨',', [], rfl, by simp, by decide, by decide, by decide⟩),
   (ReadDecimal_accepts [','] (TokenizerState.new ['a', 'b', 'c'] ['"'] '\\')).2
      (by decide) (by decide) (by decide) (by decide)⟩
/-! ## The quoted-string scan -/

theorem buf_get_iff (t : TokenizerState) (c : Char) :
    t.buf[t.m_cur]? = some c ↔ t.Eof = false ∧ CurChar t = c := by
  constructor
  · intro h
    have hE : t.Eof = false := by
      rw [Eof_eq_false_iff]
      by_contra hc
      rw [List.getElem?_eq_none (by omega)] at h
      cases h
    rw [CurChar_of_not_eof hE] at h
    exact ⟨hE, Option.some.inj h⟩
  · rintro ⟨hE, rfl⟩
    exact CurChar_of_not_eof hE

theorem buf_get_stepN_iff (s : TokenizerState) (k : Nat) (c : Char) :
    s.buf[s.m_cur + k]? = some c ↔ (s.stepN k).Eof = false ∧ CurChar (s.stepN k) = c := by
  rw [← buf_get_iff]; simp

theorem ReadQuotedStringLoop_continue (delim : Char) (hack : List Char) (k fuel : Nat)
    (s : TokenizerState)
    (h : ∀ j < k, (s.stepN j).Eof = false ∧
      (CurChar (s.stepN j) ≠ delim ∨ (s.stepN j).Escaped = true) ∧
      (!hack.isEmpty && CurChar (s.stepN j) == '"' && IsEscaped (s.stepN j)
        && hack.contains ((s.stepN j).LookAhead 1)) = false) :
    ReadQuotedStringLoop delim hack (k + fuel) s =
      ReadQuotedStringLoop delim hack fuel (s.stepN k) := by
  induction k generalizing s with
  | zero => simp [TokenizerState.stepN]
  | succ k ih =>
    obtain ⟨hE, hc, hh⟩ := h 0 (Nat.succ_pos k)
    simp only [TokenizerState.stepN] at hE hc hh
    rw [Nat.succ_add, Tokenizer.ReadQuotedStringLoop]
    have hcond : (!s.Eof && (CurChar s != delim || IsEscaped s)) = true := by
      rcases hc with hc | hc
      · simp [hE, hc]
      · simp [hE, Tokenizer.IsEscaped, hc]
    rw [if_pos hcond, hh]
    simp only [Bool.false_eq_true, if_false]
    rw [Advance_of_not_eof hE, Outcome.bind_ok]
    exact ih s.step (fun j hj => h (j + 1) (Nat.succ_lt_succ hj))

theorem ReadQuotedStringLoop_exit (delim : Char) (hack : List Char) (fuel : Nat)
    (t : TokenizerState) (h : t.Eof = true ∨ (CurChar t = delim ∧ t.Escaped = false)) :
    ReadQuotedStringLoop delim hack fuel t = (.ok (), t) := by
  cases fuel with
  | zero => rfl
  | succ fuel =>
    unfold Tokenizer.ReadQuotedStringLoop
    have hcond : (!t.Eof && (CurChar t != delim || IsEscaped t)) = false := by
      rcases h with h | ⟨h1, h2⟩
      · simp [h]
      · simp [h1, Tokenizer.IsEscaped, h2]
    rw [hcond]; rfl

theorem ReadQuotedString_of_loop {delim : Char} {hack : List Char} {s t : TokenizerState}
    (h : ReadQuotedStringLoop delim hack (s.End - s.m_cur) s = (.ok (), t)) :
    ReadQuotedString delim hack s =
      if t.Eof then (.error (ParserException.plain "Unexpected end of file"), t)
      else (.ok t.m_cur, t.step) := by
  unfold Tokenizer.ReadQuotedString
  rw [h, Outcome.bind_ok]
  cases hE : t.Eof
  · simp [TokenizerState.ErrorIfEof, hE, Advance_of_not_eof hE, TokenizerState.CurPos]
  · simp [TokenizerState.ErrorIfEof, hE]

/-- C5 (quoted-string scan with empty `hack_delims`).  Let `p = m_cur + k` be
the first position at or after the cursor whose character is `delim` and at
which `Escaped()` is false in the state reached by `k` single advances.  Then
`ReadQuotedString(delim)` returns `p` and leaves the cursor one character past
`p`, in the state reached by `k + 1` advances.  If there is no such position,
it throws the end-of-input exception, with the cursor at the end of the
buffer. -/
theorem ReadQuotedString_scan (delim : Char) (s : TokenizerState) :
    (∀ k, s.buf[s.m_cur + k]? = some delim → (s.stepN k).Escaped = false →
      (∀ j < k, ¬ (s.buf[s.m_cur + j]? = some delim ∧ (s.stepN j).Escaped = false)) →
      ReadQuotedString delim [] s = (.ok (s.m_cur + k), s.stepN (k + 1))) ∧
    ((∀ k, ¬ (s.buf[s.m_cur + k]? = some delim ∧ (s.stepN k).Escaped = false)) →
      ReadQuotedString delim [] s =
        (.error (ParserException.plain "Unexpected end of file"),
          s.stepN (s.buf.length - s.m_cur))) := by
  have hcont : ∀ k, s.m_cur + k ≤ s.buf.length →
      (∀ j < k, ¬ (s.buf[s.m_cur + j]? = some delim ∧ (s.stepN j).Escaped = false)) →
      ∀ j < k, (s.stepN j).Eof = false ∧
        (CurChar (s.stepN j) ≠ delim ∨ (s.stepN j).Escaped = true) ∧
        (!([] : List Char).isEmpty && CurChar (s.stepN j) == '"' && IsEscaped (s.stepN j)
          && ([] : List Char).contains ((s.stepN j).LookAhead 1)) = false := by
    intro k hk hfirst j hj
    have hE : (s.stepN j).Eof = false := by
      rw [Eof_eq_false_iff]; simp; omega
    refine ⟨hE, ?_, by simp⟩
    have := hfirst j hj
    rw [buf_get_stepN_iff] at this
    by_cases hc : CurChar (s.stepN j) = delim
    · right
      cases hesc : (s.stepN j).Escaped
      · exact absurd ⟨⟨hE, hc⟩, hesc⟩ this
      · rfl
    · exact Or.inl hc
  constructor
  · intro k hk hesc hfirst
    have hk' := (buf_get_stepN_iff s k delim).1 hk
    have hlt : s.m_cur + k < s.buf.length := by
      have := (Eof_eq_false_iff _).1 hk'.1
      simpa using this
    have hfuel : s.End - s.m_cur = k + (s.buf.length - s.m_cur - k) := by
      simp only [TokenizerState.End]; omega
    have hloop : ReadQuotedStringLoop delim [] (s.End - s.m_cur) s = (.ok (), s.stepN k) := by
      rw [hfuel, ReadQuotedStringLoop_continue delim [] k _ s (hcont k (by omega) hfirst)]
      exact ReadQuotedStringLoop_exit delim [] _ _ (Or.inr ⟨hk'.2, hesc⟩)
    rw [ReadQuotedString_of_loop hloop, hk'.1]
    simp only [Bool.false_eq_true, if_false, stepN_m_cur]
    rw [show s.stepN (k + 1) = (s.stepN k).step from stepN_succ k s]
  · intro hnone
    by_cases hle : s.m_cur ≤ s.buf.length
    · have hloop : ReadQuotedStringLoop delim [] (s.End - s.m_cur) s =
          (.ok (), s.stepN (s.buf.length - s.m_cur)) := by
        have := ReadQuotedStringLoop_continue delim [] (s.buf.length - s.m_cur) 0 s
          (hcont _ (by omega) (fun j _ => hnone j))
        simp only [Nat.add_zero] at this
        simp only [TokenizerState.End]
        rw [this]; rfl
      have hE : (s.stepN (s.buf.length - s.m_cur)).Eof = true := by
        rw [Eof_eq_true_iff]; simp; omega
      rw [ReadQuotedString_of_loop hloop, hE]; rfl
    · have h0 : s.buf.length - s.m_cur = 0 := by omega
      have hE : s.Eof = true := by rw [Eof_eq_true_iff]; omega
      have hloop : ReadQuotedStringLoop delim [] (s.End - s.m_cur) s = (.ok (), s) :=
        ReadQuotedStringLoop_exit delim [] _ s (Or.inl hE)
      rw [ReadQuotedString_of_loop hloop, hE, h0]; rfl

/-- Witness for C5: in `a\"b"x` with escape character `\` the quote at offset 2
is escaped, so the scan returns offset 4 and leaves the cursor at offset 5. -/
theorem ReadQuotedString_scan_witness :
    ReadQuotedString '"' [] (TokenizerState.new ['a', '\\', '"', 'b', '"', 'x'] ['"'] '\\') =
      (.ok (0 + 4), (TokenizerState.new ['a', '\\', '"', 'b', '"', 'x'] ['"'] '\\').stepN (4 + 1)) :=
  (ReadQuotedString_scan '"' (TokenizerState.new ['a', '\\', '"', 'b', '"', 'x'] ['"'] '\\')).1
    4 (by decide) (by decide) (by decide)

theorem LookAhead_of_get {t : TokenizerState} {n : Nat} {c : Char}
    (h : t.buf[t.m_cur + n]? = some c) : t.LookAhead n = c := by
  have hlt : t.m_cur + n < t.buf.length := by
    by_contra hc
    rw [List.getElem?_eq_none (by omega)] at h
    cases h
  have hE : t.EofAt (t.m_cur + n) = false := by
    simp [TokenizerState.EofAt, TokenizerState.End, hlt]
  rw [TokenizerState.LookAhead, hE]
  simp only [Bool.false_eq_true, if_false]
  rw [deref_of_lt hlt]
  rw [List.getElem?_eq_getElem hlt] at h
  exact Option.some.inj h

theorem ReadQuotedStringLoop_hack (delim : Char) (hack : List Char) (fuel : Nat)
    (t : TokenizerState) (hE : t.Eof = false) (hq : CurChar t = '"')
    (hesc : t.Escaped = true) (hnext : t.LookAhead 1 ∈ hack) :
    ReadQuotedStringLoop delim hack (fuel + 1) t = (.ok (), t.ResetEscaped) := by
  rw [Tokenizer.ReadQuotedStringLoop]
  have hne : hack.isEmpty = false := by
    cases hack with
    | nil => cases hnext
    | cons a l => rfl
  rw [if_pos (by simp [hE, Tokenizer.IsEscaped, hesc]),
    if_pos (by simp [hne, hq, Tokenizer.IsEscaped, hesc, hnext])]

/-- Counterexample to C6 as stated: with escape character `"` and escapable
set `"`, in the buffer `"")` after the opening quote has been advanced over,
the cursor is on an escaped `"` whose next character `)` is in `hack_delims`;
`ReadQuotedString` returns that quote's position 1 and leaves the cursor at 2,
but the escape flag is set, because advancing over the quote toggles it. -/
theorem ReadQuotedString_hack_flag_set :
    ((TokenizerState.new ['"', '"', ')'] ['"'] '"').stepN 1).buf[1]? = some '"' ∧
    ((TokenizerState.new ['"', '"', ')'] ['"'] '"').stepN 1).Escaped = true ∧
    ((TokenizerState.new ['"', '"', ')'] ['"'] '"').stepN 1).buf[2]? = some ')' ∧
    ((TokenizerState.new ['"', '"', ')'] ['"'] '"').stepN 1).m_cur = 1 ∧
    (ReadQuotedString '"' [')'] ((TokenizerState.new ['"', '"', ')'] ['"'] '"').stepN 1)).1
      = .ok 1 ∧
    (ReadQuotedString '"' [')'] ((TokenizerState.new ['"', '"', ')'] ['"'] '"').stepN 1)).2.m_cur
      = 2 ∧
    (ReadQuotedString '"' [')'] ((TokenizerState.new ['"', '"', ')'] ['"'] '"').stepN 1)).2.m_escaped
      = true := by
  decide

/-- C6, amended (the quoted-string hack).  With `delim` the double quote, let
`m_cur + k` be the first double quote at which the scan stops, and let it be an
escaped one whose next character is a member of `hack_delims`: every earlier
double quote is escaped and is not followed by a member of `hack_delims`.  Then
`ReadQuotedString` returns the position of that quote and leaves the cursor
one character past it; the escape flag has been cleared before the quote is
advanced over, so afterwards it is set exactly when the escape character is
itself the double quote. -/
theorem ReadQuotedString_hack (hack : List Char) (s : TokenizerState) (k : Nat) (c : Char)
    (hq : s.buf[s.m_cur + k]? = some '"') (hesc : (s.stepN k).Escaped = true)
    (hnext : s.buf[s.m_cur + k + 1]? = some c) (hc : c ∈ hack)
    (hfirst : ∀ j < k, s.buf[s.m_cur + j]? = some '"' →
      (s.stepN j).Escaped = true ∧ ∀ c', s.buf[s.m_cur + j + 1]? = some c' → c' ∉ hack) :
    ReadQuotedString '"' hack s = (.ok (s.m_cur + k), ((s.stepN k).ResetEscaped).step) ∧
      ((s.stepN k).ResetEscaped).step.m_cur = s.m_cur + k + 1 ∧
      ((s.stepN k).ResetEscaped).step.m_escaped = decide (s.m_escape_char = '"') := by
  have hk' := (buf_get_stepN_iff s k '"').1 hq
  have hlt : s.m_cur + k < s.buf.length := by
    have := (Eof_eq_false_iff _).1 hk'.1
    simpa using this
  have hcont : ∀ j < k, (s.stepN j).Eof = false ∧
      (CurChar (s.stepN j) ≠ '"' ∨ (s.stepN j).Escaped = true) ∧
      (!hack.isEmpty && CurChar (s.stepN j) == '"' && IsEscaped (s.stepN j)
        && hack.contains ((s.stepN j).LookAhead 1)) = false := by
    intro j hj
    have hE : (s.stepN j).Eof = false := by
      rw [Eof_eq_false_iff]; simp; omega
    by_cases hcq : CurChar (s.stepN j) = '"'
    · obtain ⟨he, hn⟩ := hfirst j hj ((buf_get_stepN_iff s j '"').2 ⟨hE, hcq⟩)
      refine ⟨hE, Or.inr he, ?_⟩
      have hlt' : s.m_cur + j + 1 < s.buf.length := by omega
      have hget : (s.stepN j).buf[(s.stepN j).m_cur + 1]? = some (s.buf[s.m_cur + j + 1]) := by
        simp [List.getElem?_eq_getElem hlt']
      rw [LookAhead_of_get hget]
      have := hn _ (List.getElem?_eq_getElem hlt')
      simp [this]
    · refine ⟨hE, Or.inl hcq, ?_⟩
      simp [hcq]
  have hfuel : s.End - s.m_cur = k + (s.buf.length - s.m_cur - k - 1 + 1) := by
    simp only [TokenizerState.End]; omega
  have hla : (s.stepN k).LookAhead 1 = c := LookAhead_of_get (by simpa using hnext)
  have hloop : ReadQuotedStringLoop '"' hack (s.End - s.m_cur) s =
      (.ok (), (s.stepN k).ResetEscaped) := by
    rw [hfuel, ReadQuotedStringLoop_continue '"' hack k _ s hcont]
    exact ReadQuotedStringLoop_hack '"' hack _ _ hk'.1 hk'.2 hesc (by rw [hla]; exact hc)
  have hE' : ((s.stepN k).ResetEscaped).Eof = false := hk'.1
  have hcur : ((s.stepN k).ResetEscaped).CurChar = '"' := by
    have h1 : (s.stepN k).buf[(s.stepN k).m_cur]? = some '"' := by simpa using hq
    have hlt2 : (s.stepN k).m_cur < (s.stepN k).buf.length := by simpa using hlt
    rw [List.getElem?_eq_getElem hlt2] at h1
    show (s.stepN k).deref (s.stepN k).m_cur = '"'
    rw [deref_of_lt hlt2]
    exact Option.some.inj h1
  refine ⟨?_, ?_, ?_⟩
  · rw [ReadQuotedString_of_loop hloop, hE']
    simp [TokenizerState.ResetEscaped]
  · simp [TokenizerState.ResetEscaped]
  · unfold TokenizerState.step
    rw [hcur, if_neg (by decide)]
    simp [TokenizerState.ResetEscaped, eq_comm]

/-- Witness for the amended C6: escape character `\`, escapable set `"`, buffer
`C:\")` and `hack_delims` `)`: the call returns offset 3, so the content is
`C:\`, the cursor is left at offset 4, on `)`, and the escape flag is clear. -/
theorem ReadQuotedString_hack_witness :
    ReadQuotedString '"' [')'] (TokenizerState.new ['C', ':', '\\', '"', ')'] ['"'] '\\') =
        (.ok (0 + 3),
          (((TokenizerState.new ['C', ':', '\\', '"', ')'] ['"'] '\\').stepN 3).ResetEscaped).step) ∧
      (((TokenizerState.new ['C', ':', '\\', '"', ')'] ['"'] '\\').stepN 3).ResetEscaped).step.m_cur
        = 0 + 3 + 1 ∧
      (((TokenizerState.new ['C', ':', '\\', '"', ')'] ['"'] '\\').stepN 3).ResetEscaped).step.m_escaped
        = decide ('\\' = '"') :=
  ReadQuotedString_hack [')'] (TokenizerState.new ['C', ':', '\\', '"', ')'] ['"'] '\\') 3 ')'
    (by decide) (by decide) (by decide) (by decide) (by decide)

theorem ReadQuotedStringLoop_run (delim : Char) (hack : List Char) (fuel : Nat)
    (s : TokenizerState) :
    ∃ k t, k ≤ fuel ∧ k ≤ s.text.length ∧ (t = s.stepN k ∨ t = (s.stepN k).ResetEscaped) ∧
      ReadQuotedStringLoop delim hack fuel s = (.ok (), t) := by
  induction fuel generalizing s with
  | zero => exact ⟨0, s, le_refl _, Nat.zero_le _, Or.inl rfl, rfl⟩
  | succ fuel ih =>
    rw [Tokenizer.ReadQuotedStringLoop]
    by_cases hc : (!s.Eof && (CurChar s != delim || IsEscaped s)) = true
    · rw [if_pos hc]
      by_cases hh : (!hack.isEmpty && CurChar s == '"' && IsEscaped s
          && hack.contains (s.LookAhead 1)) = true
      · rw [if_pos hh]
        exact ⟨0, s.ResetEscaped, Nat.zero_le _, Nat.zero_le _, Or.inr rfl, rfl⟩
      · rw [if_neg hh]
        have hE : s.Eof = false := by
          simp only [Bool.and_eq_true, Bool.not_eq_true'] at hc
          exact hc.1
        rw [Advance_of_not_eof hE, Outcome.bind_ok]
        obtain ⟨k, t, hk, hb, ht, hr⟩ := ih s.step
        refine ⟨k + 1, t, by omega, ?_, ht, hr⟩
        rw [text_of_not_eof hE]; simpa using hb
    · rw [if_neg hc]
      exact ⟨0, s, Nat.zero_le _, Nat.zero_le _, Or.inl rfl, rfl⟩

theorem ReadQuotedString_cases (delim : Char) (hack : List Char) (s : TokenizerState) :
    ∃ t, ReadQuotedStringLoop delim hack (s.End - s.m_cur) s = (.ok (), t) ∧
      ((t.Eof = true ∧ ReadQuotedString delim hack s =
          (.error (ParserException.plain "Unexpected end of file"), t)) ∨
       (t.Eof = false ∧ ReadQuotedString delim hack s = (.ok t.m_cur, t.step))) := by
  obtain ⟨k, t, -, -, -, hr⟩ := ReadQuotedStringLoop_run delim hack (s.End - s.m_cur) s
  refine ⟨t, hr, ?_⟩
  rw [ReadQuotedString_of_loop hr]
  cases hE : t.Eof
  · right; exact ⟨rfl, rfl⟩
  · left; exact ⟨rfl, rfl⟩

/-- Counterexample to C7 as stated: at the end of the (empty) buffer, on line 1
and in column 1, `Advance()` throws the exception built by
`ParserException("Unexpected end of file")`, which carries no line and no
column. -/
theorem Advance_error_without_position :
    (TokenizerState.new [] ['"'] '\\').Advance =
        (.error (ParserException.plain "Unexpected end of file"),
          TokenizerState.new [] ['"'] '\\') ∧
      (ParserException.plain "Unexpected end of file").position ≠
        some ((TokenizerState.new [] ['"'] '\\').m_line,
          (TokenizerState.new [] ['"'] '\\').m_column) := by
  constructor
  · rfl
  · intro h; cases h

/-- C7, amended (the end-of-input error).  `Advance()` throws exactly when
`m_cur >= m_end`; it then leaves the state unchanged and throws the
message-only exception with the fixed text `Unexpected end of file`, which has
no line and no column; when `m_cur < m_end` it returns.  Every exception that
`ReadQuotedString` throws is that same message-only exception, thrown with
the cursor at or past the end of the buffer. -/
theorem Advance_fails_iff_eof (s : TokenizerState) :
    ((∃ e, (s.Advance).1 = .error e) ↔ s.buf.length ≤ s.m_cur) ∧
    (s.buf.length ≤ s.m_cur →
      s.Advance = (.error (ParserException.plain "Unexpected end of file"), s)) ∧
    (s.m_cur < s.buf.length → s.Advance = (.ok (), s.step)) ∧
    (ParserException.plain "Unexpected end of file").position = none ∧
    (∀ delim hack e s', ReadQuotedString delim hack s = (.error e, s') →
      e = ParserException.plain "Unexpected end of file" ∧ s'.buf.length ≤ s'.m_cur) := by
  refine ⟨?_, ?_, ?_, rfl, ?_⟩
  · constructor
    · rintro ⟨e, he⟩
      by_contra hc
      rw [Advance_of_not_eof ((Eof_eq_false_iff s).2 (by omega))] at he
      cases he
    · intro h
      rw [Advance_of_eof ((Eof_eq_true_iff s).2 h)]
      exact ⟨_, rfl⟩
  · intro h
    exact Advance_of_eof ((Eof_eq_true_iff s).2 h)
  · intro h
    exact Advance_of_not_eof ((Eof_eq_false_iff s).2 h)
  · intro delim hack e s' h
    obtain ⟨t, -, ⟨hE, hr⟩ | ⟨hE, hr⟩⟩ := ReadQuotedString_cases delim hack s
    · rw [hr] at h
      obtain ⟨h1, h2⟩ := Prod.mk.inj h
      cases h1
      subst h2
      exact ⟨rfl, (Eof_eq_true_iff _).1 hE⟩
    · rw [hr] at h
      cases (Prod.mk.inj h).1

/-- Witness for the amended C7: at the end of the buffer `ab` the call of
`Advance()` throws and leaves the state as it was. -/
theorem Advance_fails_iff_eof_witness :
    ((TokenizerState.new ['a', 'b'] ['"'] '\\').stepN 2).buf.length ≤
        ((TokenizerState.new ['a', 'b'] ['"'] '\\').stepN 2).m_cur ∧
      ((TokenizerState.new ['a', 'b'] ['"'] '\\').stepN 2).Advance =
        (.error (ParserException.plain "Unexpected end of file"),
          (TokenizerState.new ['a', 'b'] ['"'] '\\').stepN 2) :=
  ⟨by decide,
    (Advance_fails_iff_eof ((TokenizerState.new ['a', 'b'] ['"'] '\\').stepN 2)).2.1 (by decide)⟩
/-! ## The loop bound is never the reason a loop stops

Each loop is given `m_end - m_cur` iterations.  When it returns, its test is
false (or, for the quoted-string loop, it has left through the `break`), as
for the unbounded `while` of the source. -/

theorem ReadDigitsLoop_exits (fuel : Nat) (s t : TokenizerState) (hf : s.text.length ≤ fuel)
    (h : ReadDigitsLoop fuel s = (.ok (), t)) : (!t.Eof && IsDigit (CurChar t)) = false := by
  induction fuel generalizing s with
  | zero =>
    have hE : s.Eof = true := (Eof_iff_text_nil s).2 (List.length_eq_zero.1 (Nat.le_zero.1 hf))
    cases (Prod.mk.inj h).2
    simp [hE]
  | succ fuel ih =>
    rw [Tokenizer.ReadDigitsLoop] at h
    by_cases hc : (!s.Eof && IsDigit (CurChar s)) = true
    · rw [if_pos hc] at h
      have hE : s.Eof = false := by
        simp only [Bool.and_eq_true, Bool.not_eq_true'] at hc
        exact hc.1
      rw [Advance_of_not_eof hE, Outcome.bind_ok] at h
      refine ih s.step ?_ h
      rw [text_of_not_eof hE] at hf
      simpa using hf
    · rw [if_neg hc] at h
      cases (Prod.mk.inj h).2
      simpa using hc

theorem ReadDigits_exits (s t : TokenizerState) (h : ReadDigits s = (.ok (), t)) :
    (!t.Eof && IsDigit (CurChar t)) = false :=
  ReadDigitsLoop_exits _ s t (by rw [text_length]; exact le_refl _) h

theorem ReadQuotedStringLoop_exits (delim : Char) (hack : List Char) (fuel : Nat)
    (s t : TokenizerState) (hf : s.text.length ≤ fuel)
    (h : ReadQuotedStringLoop delim hack fuel s = (.ok (), t)) :
    (!t.Eof && (CurChar t != delim || IsEscaped t)) = false ∨
    ∃ u, t = u.ResetEscaped ∧ (!u.Eof && (CurChar u != delim || IsEscaped u)) = true ∧
      (!hack.isEmpty && CurChar u == '"' && IsEscaped u
        && hack.contains (u.LookAhead 1)) = true := by
  induction fuel generalizing s with
  | zero =>
    have hE : s.Eof = true := (Eof_iff_text_nil s).2 (List.length_eq_zero.1 (Nat.le_zero.1 hf))
    cases (Prod.mk.inj h).2
    left; simp [hE]
  | succ fuel ih =>
    rw [Tokenizer.ReadQuotedStringLoop] at h
    by_cases hc : (!s.Eof && (CurChar s != delim || IsEscaped s)) = true
    · rw [if_pos hc] at h
      by_cases hh : (!hack.isEmpty && CurChar s == '"' && IsEscaped s
          && hack.contains (s.LookAhead 1)) = true
      · rw [if_pos hh] at h
        cases (Prod.mk.inj h).2
        exact Or.inr ⟨s, rfl, hc, hh⟩
      · rw [if_neg hh] at h
        have hE : s.Eof = false := by
          simp only [Bool.and_eq_true, Bool.not_eq_true'] at hc
          exact hc.1
        rw [Advance_of_not_eof hE, Outcome.bind_ok] at h
        refine ih s.step ?_ h
        rw [text_of_not_eof hE] at hf
        simpa using hf
    · rw [if_neg hc] at h
      cases (Prod.mk.inj h).2
      left; simpa using hc

/-! ## Peeking and skipping tokens -/

theorem Restore_GetSnapshot (s : TokenizerState) : s.Restore s.GetSnapshot = s := rfl

theorem GetSnapshot_Restore (t : TokenizerState) (snap : Snapshot) :
    (t.Restore snap).GetSnapshot = snap := rfl

theorem Restore_of_frame {s t : TokenizerState} (hb : t.buf = s.buf)
    (he : t.m_escapable_chars = s.m_escapable_chars) (hc : t.m_escape_char = s.m_escape_char) :
    t.Restore s.GetSnapshot = s := by
  cases s; cases t
  simp only [TokenizerState.Restore, TokenizerState.GetSnapshot] at *
  simp [hb, he, hc]

theorem PeekToken_state_of_frame {ε : Type} (emit : Emitter ε) (hf : KeepsBuffer emit)
    (s : TokenizerState) : (PeekToken emit s).2 = s := by
  obtain ⟨hb, he, hc⟩ := hf s
  exact Restore_of_frame hb he hc

/-- C8 (`PeekToken` does not consume).  For every emission and every state `s`,
after `PeekToken` the position, line, column and escape flag are those of `s`,
whether the emission returned or threw, and `PeekToken` returns (or throws)
what `NextToken` returns (or throws) at `s`.  For an emission that leaves the
buffer and the escape configuration alone, the whole state after `PeekToken`
is `s`, so `NextToken` after `PeekToken` gives the same token and the same
final state as `NextToken` alone. -/
theorem PeekToken_nonconsuming {ε : Type} (emit : Emitter ε) (s : TokenizerState) :
    (PeekToken emit s).2.GetSnapshot = s.GetSnapshot ∧
    (PeekToken emit s).1 = (NextToken emit s).1 ∧
    (KeepsBuffer emit →
      (PeekToken emit s).2 = s ∧
      NextToken emit (PeekToken emit s).2 = NextToken emit s) := by
  refine ⟨rfl, rfl, fun hf => ?_⟩
  have h := PeekToken_state_of_frame emit hf s
  exact ⟨h, by rw [h]⟩

theorem emitChar_KeepsBuffer : KeepsBuffer emitChar := by
  intro s
  unfold emitChar
  cases hE : s.Eof
  · simp [Advance_of_not_eof hE]
  · simp [Advance_of_eof hE]

/-- Witness for C8: the one-character emission peeked at the start of `ab`. -/
theorem PeekToken_nonconsuming_witness :
    (PeekToken emitChar (TokenizerState.new ['a', 'b'] ['"'] '\\')).2 =
        TokenizerState.new ['a', 'b'] ['"'] '\\' ∧
      NextToken emitChar (PeekToken emitChar (TokenizerState.new ['a', 'b'] ['"'] '\\')).2 =
        NextToken emitChar (TokenizerState.new ['a', 'b'] ['"'] '\\') :=
  (PeekToken_nonconsuming emitChar (TokenizerState.new ['a', 'b'] ['"'] '\\')).2.2
    emitChar_KeepsBuffer

/-- C9 (`SkipToken`).  Let the emission leave the buffer and the escape
configuration alone, and let `NextToken` at `s` emit the token `tok` and leave
the state `s1`.  If the type of `tok` intersects `mask`, the state after
`SkipToken(mask)` is `s1`; otherwise it is `s`.  If `NextToken` throws at `s`,
`SkipToken` throws the same exception and the state is `s`. -/
theorem SkipToken_spec {ε : Type} (emit : Emitter ε) (hf : KeepsBuffer emit)
    (s : TokenizerState) (mask : Nat) :
    (∀ tok s1, NextToken emit s = (.ok tok, s1) →
      (tok.m_type &&& mask ≠ 0 → SkipToken emit mask s = (.ok (), s1)) ∧
      (tok.m_type &&& mask = 0 → SkipToken emit mask s = (.ok (), s))) ∧
    (∀ e s1, NextToken emit s = (.error e, s1) → SkipToken emit mask s = (.error e, s)) := by
  have hpeek : PeekToken emit s = ((NextToken emit s).1, s) := by
    have := PeekToken_state_of_frame emit hf s
    exact Prod.ext rfl this
  constructor
  · intro tok s1 h
    unfold Tokenizer.SkipToken
    rw [hpeek, h, Outcome.bind_ok]
    constructor
    · intro hm
      rw [if_pos (by simp [Token.HasType, hm]), h]; rfl
    · intro hm
      rw [if_neg (by simp [Token.HasType, hm])]
  · intro e s1 h
    unfold Tokenizer.SkipToken
    rw [hpeek, h]; rfl

/-- Witness for C9: the one-character emission at the start of `ab` emits a
token of type 1; with mask 1 the token is skipped. -/
theorem SkipToken_spec_witness :
    SkipToken emitChar 1 (TokenizerState.new ['a', 'b'] ['"'] '\\') =
      (.ok (), (TokenizerState.new ['a', 'b'] ['"'] '\\').step) :=
  ((SkipToken_spec emitChar emitChar_KeepsBuffer (TokenizerState.new ['a', 'b'] ['"'] '\\') 1).1
    ⟨1, 0, 1, 0, 1, 1⟩ (TokenizerState.new ['a', 'b'] ['"'] '\\').step rfl).1 (by decide)
/-! ## Pattern matching at the cursor -/

theorem CurChar_eq_LookAhead_zero (s : TokenizerState) : CurChar s = s.LookAhead 0 := rfl

theorem MatchesPattern_iff (pattern : List Char) (s : TokenizerState) :
    MatchesPattern pattern s = true ↔
      pattern ≠ [] ∧ s.Escaped = false ∧
        ∀ i, i < pattern.length → s.LookAhead i = pattern.getD i NUL := by
  unfold Tokenizer.MatchesPattern
  cases pattern with
  | nil => simp
  | cons p ps =>
    cases hesc : s.Escaped
    · by_cases h0 : CurChar s = p
      · simp only [List.isEmpty_cons, Tokenizer.IsEscaped, hesc, Bool.or_false, h0,
          List.getD_cons_zero, bne_self_eq_false, Bool.false_eq_true, if_false,
          List.all_eq_true, List.mem_range', ne_eq, not_false_eq_true, true_and]
        constructor
        · intro h
          refine ⟨List.cons_ne_nil _ _, fun i hi => ?_⟩
          cases i with
          | zero => rw [← CurChar_eq_LookAhead_zero, h0]; rfl
          | succ i =>
            have := h (i + 1) ⟨i, by simp at hi ⊢; omega, by omega⟩
            simpa using this
        · rintro ⟨-, h⟩ i ⟨j, hj, rfl⟩
          have := h (1 + 1 * j) (by simp at hj ⊢; omega)
          simpa using this
      · have hne : (CurChar s != p) = true := by simpa using h0
        simp only [List.isEmpty_cons, Tokenizer.IsEscaped, hesc, Bool.or_false, Bool.false_or,
          List.getD_cons_zero, hne, if_true, Bool.false_eq_true, false_iff, not_and, not_forall]
        intro _ _
        exact ⟨0, by simp, by rw [← CurChar_eq_LookAhead_zero]; simpa using h0⟩
    · simp [Tokenizer.IsEscaped, hesc]

theorem LookAhead_eq_iff (s : TokenizerState) (i : Nat) {c : Char} (hc : c ≠ NUL) :
    s.LookAhead i = c ↔ s.buf[s.m_cur + i]? = some c := by
  constructor
  · intro h
    by_cases hlt : s.m_cur + i < s.buf.length
    · have hE : s.EofAt (s.m_cur + i) = false := by
        simp [TokenizerState.EofAt, TokenizerState.End, hlt]
      rw [TokenizerState.LookAhead, hE] at h
      simp only [Bool.false_eq_true, if_false] at h
      rw [deref_of_lt hlt] at h
      rw [List.getElem?_eq_getElem hlt, h]
    · have hE : s.EofAt (s.m_cur + i) = true := by
        simp [TokenizerState.EofAt, TokenizerState.End]; omega
      rw [TokenizerState.LookAhead, hE] at h
      exact absurd h.symm hc
  · exact LookAhead_of_get

/-- Counterexample to C10 as stated: for the empty pattern the right-hand side
holds at the start of the buffer `a` (the cursor is not escaped and there is no
pattern character to compare), yet `MatchesPattern` returns `false`. -/
theorem MatchesPattern_empty_pattern :
    MatchesHere [] (TokenizerState.new ['a'] ['"'] '\\') ∧
      MatchesPattern [] (TokenizerState.new ['a'] ['"'] '\\') = false := by
  refine ⟨⟨rfl, fun i hi => ?_⟩, rfl⟩
  cases hi

/-- C10, amended (`MatchesPattern`).  For the empty pattern `MatchesPattern`
is false.  For a non-empty pattern it is true if and only if `Escaped()` is
false at the cursor and every pattern character equals what `LookAhead`
returns at its offset, the buffer character or `0` at and past the end; so for
a non-empty pattern without a `0` character it is true if and only if
`Escaped()` is false and the buffer characters at `m_cur, ..., m_cur + len - 1`
all lie before the end and equal the pattern character for character.  The
call is `const`: it returns a value and has no state to change. -/
theorem MatchesPattern_spec (pattern : List Char) (s : TokenizerState) :
    (pattern = [] → MatchesPattern pattern s = false) ∧
    (pattern ≠ [] →
      (MatchesPattern pattern s = true ↔
        s.Escaped = false ∧ ∀ i, i < pattern.length → s.LookAhead i = pattern.getD i NUL)) ∧
    (pattern ≠ [] → NUL ∉ pattern →
      (MatchesPattern pattern s = true ↔ MatchesHere pattern s)) := by
  refine ⟨?_, ?_, ?_⟩
  · rintro rfl; rfl
  · intro hne
    rw [MatchesPattern_iff]
    exact ⟨fun h => h.2, fun h => ⟨hne, h⟩⟩
  · intro hne hnul
    rw [MatchesPattern_iff, MatchesHere]
    have key : ∀ i, i < pattern.length →
        (s.LookAhead i = pattern.getD i NUL ↔ s.buf[s.m_cur + i]? = pattern[i]?) := by
      intro i hi
      have hget : pattern.getD i NUL = pattern[i] := by
        simp [List.getD_eq_getElem?_getD, List.getElem?_eq_getElem hi]
      have hc : pattern[i] ≠ NUL := fun h => hnul (h ▸ List.getElem_mem hi)
      rw [hget, List.getElem?_eq_getElem hi]
      exact LookAhead_eq_iff s i hc
    constructor
    · rintro ⟨-, hesc, h⟩
      exact ⟨hesc, fun i hi => (key i hi).1 (h i hi)⟩
    · rintro ⟨hesc, h⟩
      exact ⟨hne, hesc, fun i hi => (key i hi).2 (h i hi)⟩

/-- Witness for the amended C10: the pattern `ab` matches at the start of
`abc`. -/
theorem MatchesPattern_spec_witness :
    MatchesPattern ['a', 'b'] (TokenizerState.new ['a', 'b', 'c'] ['"'] '\\') = true ↔
      MatchesHere ['a', 'b'] (TokenizerState.new ['a', 'b', 'c'] ['"'] '\\') :=
  (MatchesPattern_spec ['a', 'b'] (TokenizerState.new ['a', 'b', 'c'] ['"'] '\\')).2.2
    (by simp) (by decide)
/-! ## Single steps, escape toggling and snapshots -/

/-- C16 (single-step bookkeeping of `Advance`).  In a state with
`m_cur < m_end` the call of `Advance()` returns and moves `m_cur` forward by
exactly one, leaving the buffer and the escape configuration alone.  If the
character advanced over is a newline, the line grows by one, the column is 1
and the escape flag is clear, whatever the escape character is; otherwise the
line is unchanged and the column grows by one. -/
theorem Advance_bookkeeping (s : TokenizerState) (h : s.m_cur < s.buf.length) :
    ∃ s', s.Advance = (.ok (), s') ∧ s'.m_cur = s.m_cur + 1 ∧ s'.buf = s.buf ∧
      s'.m_escapable_chars = s.m_escapable_chars ∧ s'.m_escape_char = s.m_escape_char ∧
      (s.buf[s.m_cur]? = some '\n' →
        s'.m_line = s.m_line + 1 ∧ s'.m_column = 1 ∧ s'.m_escaped = false) ∧
      (s.buf[s.m_cur]? ≠ some '\n' →
        s'.m_line = s.m_line ∧ s'.m_column = s.m_column + 1) := by
  have hE : s.Eof = false := (Eof_eq_false_iff s).2 h
  have hc : s.CurChar = s.buf[s.m_cur] := deref_of_lt h
  refine ⟨s.step, Advance_of_not_eof hE, by simp, by simp, by simp, by simp, ?_, ?_⟩
  · intro hn
    rw [List.getElem?_eq_getElem h] at hn
    have : s.CurChar = '\n' := by rw [hc]; exact Option.some.inj hn
    unfold TokenizerState.step
    rw [if_pos this]
    exact ⟨rfl, rfl, rfl⟩
  · intro hn
    rw [List.getElem?_eq_getElem h] at hn
    have : s.CurChar ≠ '\n' := by
      rw [hc]; intro h'; exact hn (by rw [h'])
    exact step_line_column this

/-- Witness for C16: advancing over the newline of the buffer made of a newline
and `a`. -/
theorem Advance_bookkeeping_witness :
    ∃ s', (TokenizerState.new ['\n', 'a'] ['"'] '\\').Advance = (.ok (), s') ∧
      s'.m_cur = 0 + 1 ∧ s'.buf = ['\n', 'a'] ∧
      s'.m_escapable_chars = ['"'] ∧ s'.m_escape_char = '\\' ∧
      ((['\n', 'a'] : List Char)[0]? = some '\n' →
        s'.m_line = 1 + 1 ∧ s'.m_column = 1 ∧ s'.m_escaped = false) ∧
      ((['\n', 'a'] : List Char)[0]? ≠ some '\n' →
        s'.m_line = 1 ∧ s'.m_column = 1 + 1) :=
  Advance_bookkeeping (TokenizerState.new ['\n', 'a'] ['"'] '\\') (by decide)

theorem step_m_escaped_of_escape {s : TokenizerState} (hc : s.CurChar = s.m_escape_char)
    (hn : s.m_escape_char ≠ '\n') : s.step.m_escaped = !s.m_escaped := by
  unfold TokenizerState.step
  rw [if_neg (by rw [hc]; exact hn)]
  simp [hc]

theorem stepN_escape_run (n : Nat) (s : TokenizerState) (tail : List Char)
    (hn : s.m_escape_char ≠ '\n')
    (ht : s.text = List.replicate n s.m_escape_char ++ tail) :
    (s.stepN n).m_escaped = if n % 2 = 1 then !s.m_escaped else s.m_escaped := by
  induction n generalizing s with
  | zero => rfl
  | succ n ih =>
    have hcons : s.text = s.m_escape_char :: (List.replicate n s.m_escape_char ++ tail) := by
      rw [ht, List.replicate_succ]; rfl
    obtain ⟨-, -, hc, hstep⟩ := text_cons hcons
    have h1 := step_m_escaped_of_escape hc hn
    have h2 := ih s.step (by simpa using hn) (by simpa using hstep)
    simp only [TokenizerState.stepN]
    rw [h2, h1]
    rcases Nat.mod_two_eq_zero_or_one n with h | h
    · have : (n + 1) % 2 = 1 := by omega
      simp [h, this]
    · have : (n + 1) % 2 = 0 := by omega
      simp [h, this]

/-- C15 (escape toggling).  Let the escape character not be the newline, let
the escape flag be clear, and let the text at the cursor be `n` escape
characters followed by a character `c` in the buffer.  Then the `n` advances
succeed, and in the state they reach, with the cursor on `c`, `Escaped()` is
true if and only if `n` is odd and `c` is an escapable character.  At the end
of the buffer `Escaped()` is false in every state. -/
theorem Escaped_after_escape_run (s : TokenizerState) :
    (∀ (n : Nat) (c : Char) (rest : List Char), s.m_escape_char ≠ '\n' → s.m_escaped = false →
      s.text = List.replicate n s.m_escape_char ++ c :: rest →
      s.AdvanceN n = (.ok (), s.stepN n) ∧
      (s.stepN n).buf[(s.stepN n).m_cur]? = some c ∧
      ((s.stepN n).Escaped = true ↔ n % 2 = 1 ∧ c ∈ s.m_escapable_chars)) ∧
    (s.buf.length ≤ s.m_cur → s.Escaped = false) := by
  constructor
  · intro n c rest hn hf ht
    have hlen : s.m_cur + n < s.buf.length := by
      have := text_length s
      rw [ht] at this
      simp at this
      omega
    have htn : (s.stepN n).text = c :: rest := by
      rw [stepN_text, ht, List.drop_left' (List.length_replicate _ _)]
    obtain ⟨hE, hcur, hcur', -⟩ := text_cons htn
    have hflag := stepN_escape_run n s (c :: rest) hn ht
    refine ⟨AdvanceN_eq_stepN n s (by omega), ?_, ?_⟩
    · rw [← hcur]; exact CurChar_of_not_eof hE
    · unfold TokenizerState.Escaped
      rw [hE, hflag, hf, hcur']
      rcases Nat.mod_two_eq_zero_or_one n with h | h
      · simp [h]
      · simp [h]
  · intro h
    unfold TokenizerState.Escaped
    rw [(Eof_eq_true_iff s).2 h]
    rfl

/-- Witness for C15: after the three backslashes of `\\\"x` the cursor is on an
escaped quote. -/
theorem Escaped_after_escape_run_witness :
    (TokenizerState.new ['\\', '\\', '\\', '"', 'x'] ['"'] '\\').AdvanceN 3 =
        (.ok (), (TokenizerState.new ['\\', '\\', '\\', '"', 'x'] ['"'] '\\').stepN 3) ∧
      ((TokenizerState.new ['\\', '\\', '\\', '"', 'x'] ['"'] '\\').stepN 3).buf[
          ((TokenizerState.new ['\\', '\\', '\\', '"', 'x'] ['"'] '\\').stepN 3).m_cur]? =
        some '"' ∧
      (((TokenizerState.new ['\\', '\\', '\\', '"', 'x'] ['"'] '\\').stepN 3).Escaped = true ↔
        3 % 2 = 1 ∧ '"' ∈ (['"'] : List Char)) :=
  (Escaped_after_escape_run (TokenizerState.new ['\\', '\\', '\\', '"', 'x'] ['"'] '\\')).1
    3 '"' ['x'] (by decide) rfl rfl

theorem Advance_frame (s : TokenizerState) :
    (s.Advance).2.buf = s.buf ∧ (s.Advance).2.m_escapable_chars = s.m_escapable_chars ∧
      (s.Advance).2.m_escape_char = s.m_escape_char := by
  cases hE : s.Eof
  · rw [Advance_of_not_eof hE]; simp
  · rw [Advance_of_eof hE]; simp

theorem advanceCalls_frame (n : Nat) (s : TokenizerState) :
    (s.advanceCalls n).buf = s.buf ∧
      (s.advanceCalls n).m_escapable_chars = s.m_escapable_chars ∧
      (s.advanceCalls n).m_escape_char = s.m_escape_char := by
  induction n generalizing s with
  | zero => exact ⟨rfl, rfl, rfl⟩
  | succ n ih =>
    obtain ⟨h1, h2, h3⟩ := ih (s.Advance).2
    obtain ⟨g1, g2, g3⟩ := Advance_frame s
    simp only [TokenizerState.advanceCalls]
    exact ⟨h1.trans g1, h2.trans g2, h3.trans g3⟩

/-- C17 (snapshot round trip).  `Restore(GetSnapshot())` leaves position, line,
column and escape flag, indeed the whole state, as they are.  For a snapshot
taken at `s` and any number of calls of `Advance()` after it, returning or
throwing, `Restore(snapshot)` brings position, line, column and escape flag
back to their values at `s` and does not touch the buffer or the escape
configuration, so the state is `s` again. -/
theorem Snapshot_round_trip (s : TokenizerState) (n : Nat) :
    s.Restore s.GetSnapshot = s ∧
    ((s.advanceCalls n).Restore s.GetSnapshot).GetSnapshot = s.GetSnapshot ∧
    ((s.advanceCalls n).Restore s.GetSnapshot).buf = (s.advanceCalls n).buf ∧
    ((s.advanceCalls n).Restore s.GetSnapshot).m_escapable_chars =
      (s.advanceCalls n).m_escapable_chars ∧
    ((s.advanceCalls n).Restore s.GetSnapshot).m_escape_char =
      (s.advanceCalls n).m_escape_char ∧
    (s.advanceCalls n).Restore s.GetSnapshot = s := by
  obtain ⟨h1, h2, h3⟩ := advanceCalls_frame n s
  exact ⟨rfl, rfl, rfl, rfl, rfl, Restore_of_frame h1 h2 h3⟩
/-! ## The exponent marker of the decimal recognizer -/

theorem ReadDecimal_upto_exponent (delims : List Char) (s : TokenizerState)
    (sign mant tail : List Char) (ht : s.text = sign ++ mant ++ tail)
    (hs : OptSign sign) (hm : Mantissa mant)
    (htd : ∀ c ∈ tail.head?, IsDigit c = false) (htdot : ∀ c ∈ tail.head?, c ≠ '.') :
    ReadDecimal delims s =
      ((if CurChar (s.stepN (sign.length + mant.length)) = 'e' then
          ((s.stepN (sign.length + mant.length)).Advance).bind fun _ t =>
            if CurChar t = '+' ∨ CurChar t = '-' ∨ IsDigit (CurChar t) = true then
              (t.Advance).bind (fun _ u => ReadDigits u)
            else (.ok (), t)
        else (.ok (), s.stepN (sign.length + mant.length))).bind fun _ s3 =>
        if s3.Eof = true ∨ IsAnyOf (CurChar s3) delims = true then (.ok (some s3.CurPos), s3)
        else (.ok none, s)) := by
  obtain ⟨ip, frac, hmant, hip, hfrac, hstart⟩ : ∃ ip frac, mant = ip ++ frac ∧
      (∀ d ∈ ip, IsDigit d = true) ∧
      ((frac = [] ∧ ∀ c ∈ tail.head?, c ≠ '.') ∨
        (∃ fp, frac = '.' :: fp ∧ (∀ d ∈ fp, IsDigit d = true) ∧
          ∀ c ∈ tail.head?, IsDigit c = false)) ∧
      (ip ≠ [] ∨ (frac ++ tail).head? = some '.') := by
    rcases hm with ⟨ip, fp, ⟨hne, hip⟩, hfp, h | h⟩ | ⟨fp, ⟨hne, hfp⟩, h⟩
    · exact ⟨ip, [], by simp [h], hip, Or.inl ⟨rfl, htdot⟩, Or.inl hne⟩
    · exact ⟨ip, '.' :: fp, h, hip, Or.inr ⟨fp, rfl, hfp, htd⟩, Or.inl hne⟩
    · exact ⟨[], '.' :: fp, h, by simp, Or.inr ⟨fp, rfl, hfp, htd⟩, Or.inr rfl⟩
  have hfd : ∀ c ∈ (frac ++ tail).head?, IsDigit c = false := by
    rcases hfrac with ⟨rfl, -⟩ | ⟨fp, rfl, -, -⟩
    · simpa using htd
    · simp; decide
  subst hmant
  have ht1 : s.text = sign ++ ip ++ (frac ++ tail) := by
    rw [ht]; simp
  have p1 := ReadDecimal_phase1 s sign ip (frac ++ tail) ht1 hs hip hfd
    (by rcases hstart with h | h
        · exact Or.inl (Or.inr h)
        · exact Or.inr h)
  have ht2 : (s.stepN (sign.length + ip.length)).text = frac ++ tail := by
    rw [stepN_text, ht1, ← List.length_append, List.drop_left]
  have p2 := ReadDecimal_phase2 _ frac tail ht2 hfrac
  have hlead : ¬ (CurChar s ≠ '+' ∧ CurChar s ≠ '-' ∧ CurChar s ≠ '.' ∧
      ¬ IsDigit (CurChar s) = true) := by
    rintro ⟨hp, hm, hdot, hdig⟩
    rw [CurChar_eq_headD, ht1] at hp hm hdot hdig
    rcases hs with rfl | rfl | rfl
    · cases ip with
      | cons d ip' => exact hdig (hip d (by simp))
      | nil =>
        rcases hstart with h | h
        · exact h rfl
        · cases hf : frac ++ tail with
          | nil => rw [hf] at h; simp at h
          | cons x xs =>
            rw [hf] at h hdot
            simp at h
            exact hdot (by simp [h])
    · exact hp rfl
    · exact hm rfl
  have hst : (s.stepN (sign.length + ip.length)).stepN frac.length =
      s.stepN (sign.length + (ip ++ frac).length) := by
    rw [← stepN_add]; simp [Nat.add_assoc]
  unfold Tokenizer.ReadDecimal
  rw [if_neg hlead]
  simp only [p1, p2, Outcome.bind_ok]
  rw [hst]

theorem ReadDecimal_phase3_bare (s : TokenizerState) (es rest : List Char)
    (ht : s.text = 'e' :: (es ++ rest)) (hes : OptSign es)
    (h2 : ∀ c ∈ rest.head?, IsDigit c = false)
    (h3 : es = [] → ∀ c ∈ rest.head?, c ≠ '+' ∧ c ≠ '-') :
    (if CurChar s = 'e' then
      (s.Advance).bind fun _ t =>
        if CurChar t = '+' ∨ CurChar t = '-' ∨ IsDigit (CurChar t) = true then
          (t.Advance).bind (fun _ u => ReadDigits u)
        else (.ok (), t)
     else (.ok (), s)) = (.ok (), s.stepN (es.length + 1)) := by
  have hs := text_cons ht
  rw [if_pos hs.2.1, Advance_of_not_eof hs.1, Outcome.bind_ok]
  rcases hes with rfl | rfl | rfl
  · have hno : ¬ (CurChar s.step = '+' ∨ CurChar s.step = '-' ∨
        IsDigit (CurChar s.step) = true) := by
      apply CurChar_of_text (P := fun c => ¬ (c = '+' ∨ c = '-' ∨ IsDigit c = true)) (by decide)
      intro c hc
      rw [hs.2.2.2] at hc
      have h3' := h3 rfl c (by simpa using hc)
      have h2' := h2 c (by simpa using hc)
      simp [h3'.1, h3'.2, h2']
    rw [if_neg hno]; rfl
  · have hs' := text_cons hs.2.2.2
    rw [if_pos (Or.inl hs'.2.1),
      Advance_ReadDigits_spec '+' [] rest (by simp) s.step hs.2.2.2 h2]
    rfl
  · have hs' := text_cons hs.2.2.2
    rw [if_pos (Or.inr (Or.inl hs'.2.1)),
      Advance_ReadDigits_spec '-' [] rest (by simp) s.step hs.2.2.2 h2]
    rfl

/-- C19 (the exponent marker of `ReadDecimal`).  Let the text at the cursor be
an optional sign, a mantissa, the character `e` and an optional sign with no
digit after it, followed by the end of the buffer or by a member of `delims`
that is not a digit (and not a sign when no sign follows the `e`).  Then
`ReadDecimal` consumes the `e`, and the sign after it, before it tests the
terminator: it accepts and returns the position of the terminator.  So an
accepted decimal may end in a bare `e`, or in `e` and a sign without digits. -/
theorem ReadDecimal_bare_exponent (delims : List Char) (s : TokenizerState)
    (sign mant es rest : List Char) (ht : s.text = sign ++ mant ++ 'e' :: (es ++ rest))
    (hs : OptSign sign) (hm : Mantissa mant) (hes : OptSign es)
    (hr : rest = [] ∨ ∃ t tl, rest = t :: tl ∧ t ∈ delims ∧ IsDigit t = false ∧
      (es = [] → t ≠ '+' ∧ t ≠ '-')) :
    ∃ s', ReadDecimal delims s =
        (.ok (some (s.m_cur + (sign.length + mant.length + (es.length + 1)))), s') ∧
      s'.m_cur = s.m_cur + (sign.length + mant.length + (es.length + 1)) ∧
      s'.text = rest ∧ s'.buf = s.buf := by
  have hrd : ∀ c ∈ rest.head?, IsDigit c = false := by
    rcases hr with rfl | ⟨t, tl, rfl, -, h, -⟩
    · simp
    · simpa using h
  have hrs : es = [] → ∀ c ∈ rest.head?, c ≠ '+' ∧ c ≠ '-' := by
    intro he
    rcases hr with rfl | ⟨t, tl, rfl, -, -, h⟩
    · simp
    · simpa using h he
  have hup := ReadDecimal_upto_exponent delims s sign mant ('e' :: (es ++ rest)) ht hs hm
    (by simp; decide) (by simp)
  have ht3 : (s.stepN (sign.length + mant.length)).text = 'e' :: (es ++ rest) := by
    rw [stepN_text, ht, ← List.length_append, List.drop_left]
  have p3 := ReadDecimal_phase3_bare _ es rest ht3 hes hrd hrs
  have ht4 : ((s.stepN (sign.length + mant.length)).stepN (es.length + 1)).text = rest := by
    rw [stepN_text, ht3]
    simp
  have hfin := @terminator_test
    ((s.stepN (sign.length + mant.length)).stepN (es.length + 1)) delims
    (by rw [ht4]
        rcases hr with h | ⟨t, tl, h, hm, -⟩
        · exact Or.inl h
        · exact Or.inr ⟨t, tl, h, hm⟩)
  refine ⟨_, ?_, ?_, ht4, by simp⟩
  · rw [hup, p3, Outcome.bind_ok, if_pos hfin]
    simp [TokenizerState.CurPos, Nat.add_assoc]
  · simp [Nat.add_assoc]

/-- Witness for C19: `ReadDecimal(",")` on `1e,` accepts, returns offset 2 and
leaves the cursor on the comma. -/
theorem ReadDecimal_bare_exponent_witness :
    ∃ s', ReadDecimal [','] (TokenizerState.new ['1', 'e', ','] ['"'] '\\') =
        (.ok (some (0 + (0 + 1 + (0 + 1)))), s') ∧
      s'.m_cur = 0 + (0 + 1 + (0 + 1)) ∧ s'.text = [','] ∧ s'.buf = ['1', 'e', ','] :=
  ReadDecimal_bare_exponent [','] (TokenizerState.new ['1', 'e', ','] ['"'] '\\')
    [] ['1'] [] [','] rfl (Or.inl rfl)
    (Or.inl ⟨['1'], [], ⟨by simp, by decide⟩, by simp, Or.inl rfl⟩) (Or.inl rfl)
    (Or.inr ⟨',', [], rfl, by simp, by decide, fun _ => by decide⟩)
/-! ## The primitives that never throw -/

theorem ReadInteger_run (delims : List Char) (s : TokenizerState) :
    ((CurChar s ≠ '+' ∧ CurChar s ≠ '-' ∧ ¬ IsDigit (CurChar s) = true) ∧
      ReadInteger delims s = (.ok none, s)) ∨
    ∃ k, 1 ≤ k ∧ k ≤ s.buf.length - s.m_cur ∧
      ReadInteger delims s =
        if (s.stepN k).Eof = true ∨ IsAnyOf (CurChar (s.stepN k)) delims = true then
          (.ok (some (s.m_cur + k)), s.stepN k)
        else (.ok none, s) := by
  unfold Tokenizer.ReadInteger
  by_cases h0 : CurChar s ≠ '+' ∧ CurChar s ≠ '-' ∧ ¬ IsDigit (CurChar s) = true
  · left; rw [if_pos h0]; exact ⟨h0, rfl⟩
  · rw [if_neg h0]
    have hlead : CurChar s = '+' ∨ CurChar s = '-' ∨ IsDigit (CurChar s) = true := by
      by_contra hc
      simp only [not_or] at hc
      exact h0 ⟨hc.1, hc.2.1, hc.2.2⟩
    have hE : s.Eof = false := by
      rcases hlead with h | h | h
      · exact not_eof_of_CurChar (by rw [h]; decide)
      · exact not_eof_of_CurChar (by rw [h]; decide)
      · exact not_eof_of_IsDigit h
    have hlt := (Eof_eq_false_iff s).1 hE
    have hpos : 0 < s.End - s.m_cur := by
      simp only [TokenizerState.End]; omega
    have hrun : ∃ k, k ≤ s.step.text.length ∧
        ∀ F : Unit → TokenizerState → Outcome ParserException (Option Nat),
        ((if CurChar s = '+' ∨ CurChar s = '-' then s.Advance else (.ok (), s)).bind fun _ s1 =>
          (ReadDigitsLoop (s1.End - s1.m_cur) s1).bind F) = F () (s.stepN (k + 1)) := by
      by_cases h1 : CurChar s = '+' ∨ CurChar s = '-'
      · obtain ⟨k, -, hb, -, hr⟩ := ReadDigitsLoop_run (s.step.End - s.step.m_cur) s.step
        refine ⟨k, hb, fun F => ?_⟩
        rw [if_pos h1, Advance_of_not_eof hE, Outcome.bind_ok, hr]; rfl
      · have hdig : IsDigit (CurChar s) = true := by
          rcases hlead with h | h | h
          · exact absurd (Or.inl h) h1
          · exact absurd (Or.inr h) h1
          · exact h
        obtain ⟨n, hn⟩ := Nat.exists_eq_succ_of_ne_zero (Nat.pos_iff_ne_zero.1 hpos)
        obtain ⟨k, -, hb, -, hr⟩ := ReadDigitsLoop_run n s.step
        refine ⟨k, hb, fun F => ?_⟩
        rw [if_neg h1, Outcome.bind_ok, hn]
        unfold Tokenizer.ReadDigitsLoop
        rw [if_pos (by simp [hE, hdig]), Advance_of_not_eof hE, Outcome.bind_ok, hr]; rfl
    obtain ⟨k, hb, hr⟩ := hrun
    right
    refine ⟨k + 1, by omega, ?_, ?_⟩
    · rw [text_length] at hb; simp at hb; omega
    · simp only [hr, TokenizerState.CurPos, stepN_m_cur]

theorem ReadDecimal_run (delims : List Char) (s : TokenizerState) :
    ((CurChar s ≠ '+' ∧ CurChar s ≠ '-' ∧ CurChar s ≠ '.' ∧ ¬ IsDigit (CurChar s) = true) ∧
      ReadDecimal delims s = (.ok none, s)) ∨
    ∃ k, 1 ≤ k ∧ k ≤ s.buf.length - s.m_cur ∧
      ReadDecimal delims s =
        if (s.stepN k).Eof = true ∨ IsAnyOf (CurChar (s.stepN k)) delims = true then
          (.ok (some (s.m_cur + k)), s.stepN k)
        else (.ok none, s) := by
  unfold Tokenizer.ReadDecimal
  by_cases h0 : CurChar s ≠ '+' ∧ CurChar s ≠ '-' ∧ CurChar s ≠ '.' ∧ ¬ IsDigit (CurChar s) = true
  · left; rw [if_pos h0]; exact ⟨h0, rfl⟩
  · rw [if_neg h0]
    have hE0 : s.Eof = false := by
      apply not_eof_of_lead
      by_contra hc
      simp only [not_or] at hc
      exact h0 ⟨hc.1, hc.2.1, hc.2.2.1, hc.2.2.2.2⟩
    have hB1 : ∃ a, a ≤ s.text.length ∧ (CurChar s ≠ '.' → 1 ≤ a) ∧
        (if CurChar s ≠ '.' then (s.Advance).bind (fun _ t => ReadDigits t) else (.ok (), s))
          = (.ok (), s.stepN a) := by
      by_cases h1 : CurChar s ≠ '.'
      · obtain ⟨a, ha, -, hr⟩ := Advance_ReadDigits_run hE0
        exact ⟨a + 1, ha, fun _ => by omega, by rw [if_pos h1, hr]⟩
      · exact ⟨0, by simp, fun h => absurd h h1, by rw [if_neg h1]; rfl⟩
    obtain ⟨a, ha, ha1, h1⟩ := hB1
    have hB2 : ∀ t : TokenizerState, ∃ b, b ≤ t.text.length ∧ (CurChar t = '.' → 1 ≤ b) ∧
        (if CurChar t = '.' then (t.Advance).bind (fun _ u => ReadDigits u) else (.ok (), t))
          = (.ok (), t.stepN b) := by
      intro t
      by_cases h2 : CurChar t = '.'
      · obtain ⟨b, hb, -, hr⟩ :=
          Advance_ReadDigits_run (not_eof_of_lead (Or.inr (Or.inr (Or.inl h2))))
        exact ⟨b + 1, hb, fun _ => by omega, by rw [if_pos h2, hr]⟩
      · exact ⟨0, by simp, fun h => absurd h h2, by rw [if_neg h2]; rfl⟩
    obtain ⟨b, hb, hb1, h2⟩ := hB2 (s.stepN a)
    have hB3 : ∀ t : TokenizerState, ∃ c, c ≤ t.text.length ∧
        (if CurChar t = 'e' then
          (t.Advance).bind fun _ u =>
            if CurChar u = '+' ∨ CurChar u = '-' ∨ IsDigit (CurChar u) = true then
              (u.Advance).bind (fun _ v => ReadDigits v)
            else (.ok (), u)
         else (.ok (), t)) = (.ok (), t.stepN c) := by
      intro t
      by_cases h3 : CurChar t = 'e'
      · have hE : t.Eof = false := not_eof_of_lead (Or.inr (Or.inr (Or.inr (Or.inl h3))))
        have hlt := (Eof_eq_false_iff t).1 hE
        have htl := text_length t
        rw [if_pos h3, Advance_of_not_eof hE, Outcome.bind_ok]
        by_cases h4 : CurChar t.step = '+' ∨ CurChar t.step = '-' ∨ IsDigit (CurChar t.step) = true
        · have hE' : t.step.Eof = false := by
            apply not_eof_of_lead
            rcases h4 with h | h | h
            · exact Or.inl h
            · exact Or.inr (Or.inl h)
            · exact Or.inr (Or.inr (Or.inr (Or.inr h)))
          obtain ⟨c, hc, -, hr⟩ := Advance_ReadDigits_run hE'
          refine ⟨c + 1 + 1, ?_, ?_⟩
          · rw [text_length] at hc; simp at hc; omega
          · rw [if_pos h4, hr]; rfl
        · exact ⟨1, by omega, by rw [if_neg h4]; rfl⟩
      · exact ⟨0, by simp, by rw [if_neg h3]; rfl⟩
    obtain ⟨c, hc, h3⟩ := hB3 ((s.stepN a).stepN b)
    simp only [h1, Outcome.bind_ok, h2, h3]
    rw [← stepN_add, ← stepN_add]
    right
    refine ⟨a + (b + c), ?_, ?_, ?_⟩
    · by_cases hd : CurChar s ≠ '.'
      · have := ha1 hd; omega
      · have hd' : CurChar (s.stepN a) = '.' := by
          have : a = 0 := by
            by_contra hne
            have h1' := h1
            rw [if_neg hd] at h1'
            have := congrArg (fun r => r.2.m_cur) h1'
            simp at this
            omega
          subst this
          simpa using hd
        have := hb1 hd'; omega
    · rw [text_length] at ha hb hc; simp at hb hc; omega
    · simp only [TokenizerState.CurPos, stepN_m_cur]

theorem ScanLoop_run (test : Char → Bool) (fuel : Nat) (s : TokenizerState) :
    ∃ k, k ≤ fuel ∧ k ≤ s.text.length ∧ ScanLoop test fuel s = (.ok (), s.stepN k) := by
  induction fuel generalizing s with
  | zero => exact ⟨0, le_refl _, Nat.zero_le _, rfl⟩
  | succ fuel ih =>
    rw [Tokenizer.ScanLoop]
    by_cases hc : (!s.Eof && test (CurChar s)) = true
    · rw [if_pos hc]
      simp only [Bool.and_eq_true, Bool.not_eq_true'] at hc
      rw [Advance_of_not_eof hc.1, Outcome.bind_ok]
      obtain ⟨k, hk, hb, hr⟩ := ih s.step
      refine ⟨k + 1, by omega, ?_, by rw [hr]; rfl⟩
      rw [text_of_not_eof hc.1]; simpa using hb
    · rw [if_neg hc]
      exact ⟨0, Nat.zero_le _, Nat.zero_le _, rfl⟩

theorem ScanLoop_exits (test : Char → Bool) (fuel : Nat) (s t : TokenizerState)
    (hf : s.text.length ≤ fuel) (h : ScanLoop test fuel s = (.ok (), t)) :
    (!t.Eof && test (CurChar t)) = false := by
  induction fuel generalizing s with
  | zero =>
    have hE : s.Eof = true := (Eof_iff_text_nil s).2 (List.length_eq_zero.1 (Nat.le_zero.1 hf))
    cases (Prod.mk.inj h).2
    simp [hE]
  | succ fuel ih =>
    rw [Tokenizer.ScanLoop] at h
    by_cases hc : (!s.Eof && test (CurChar s)) = true
    · rw [if_pos hc] at h
      have hE : s.Eof = false := by
        simp only [Bool.and_eq_true, Bool.not_eq_true'] at hc
        exact hc.1
      rw [Advance_of_not_eof hE, Outcome.bind_ok] at h
      refine ih s.step ?_ h
      rw [text_of_not_eof hE] at hf
      simpa using hf
    · rw [if_neg hc] at h
      cases (Prod.mk.inj h).2
      simpa using hc

theorem scan_run (test : Char → Bool) (s : TokenizerState) :
    ∃ k, k ≤ s.buf.length - s.m_cur ∧ s.AdvanceN k = (.ok (), s.stepN k) ∧
      ((ScanLoop test (s.End - s.m_cur) s).bind fun _ s1 => (.ok s1.CurPos, s1)) =
        ((.ok (s.m_cur + k), s.stepN k) : Outcome ParserException Nat) := by
  obtain ⟨k, -, hb, hr⟩ := ScanLoop_run test (s.End - s.m_cur) s
  rw [text_length] at hb
  refine ⟨k, hb, ?_, ?_⟩
  · by_cases h0 : k = 0
    · subst h0; rfl
    · exact AdvanceN_eq_stepN k s (by omega)
  · rw [hr, Outcome.bind_ok]
    simp [TokenizerState.CurPos]

theorem AdvanceN_of_le (k : Nat) (s : TokenizerState) (h : k ≤ s.buf.length - s.m_cur) :
    s.AdvanceN k = (.ok (), s.stepN k) := by
  by_cases h0 : k = 0
  · subst h0; rfl
  · exact AdvanceN_eq_stepN k s (by omega)

/-- C20 (no end-of-input error from the total primitives).  In every state `s`
of every buffer and for every argument, each of `ReadInteger`, `ReadDecimal`,
`ReadUntil`, `ReadWhile`, `DiscardUntil` and `DiscardWhile` returns and does
not throw.  A scanning primitive stops in the state reached by `k` advances for
some `k ≤ m_end - m_cur`, all of them made before the end of the buffer, so
that `Advance(k)` from `s` returns in that state, and it returns the position
reached.  A recognizer either returns no match at its first test, without an
advance, or scans to the state reached by `k` advances with
`1 ≤ k ≤ m_end - m_cur` and there accepts or rolls back to `s`. -/
theorem total_primitives_never_raise (chars : List Char) (s : TokenizerState) :
    (ReadInteger chars s = (.ok none, s) ∨
      ∃ k, 1 ≤ k ∧ k ≤ s.buf.length - s.m_cur ∧ s.AdvanceN k = (.ok (), s.stepN k) ∧
        ReadInteger chars s =
          if (s.stepN k).Eof = true ∨ IsAnyOf (CurChar (s.stepN k)) chars = true then
            (.ok (some (s.m_cur + k)), s.stepN k)
          else (.ok none, s)) ∧
    (ReadDecimal chars s = (.ok none, s) ∨
      ∃ k, 1 ≤ k ∧ k ≤ s.buf.length - s.m_cur ∧ s.AdvanceN k = (.ok (), s.stepN k) ∧
        ReadDecimal chars s =
          if (s.stepN k).Eof = true ∨ IsAnyOf (CurChar (s.stepN k)) chars = true then
            (.ok (some (s.m_cur + k)), s.stepN k)
          else (.ok none, s)) ∧
    (∃ k, k ≤ s.buf.length - s.m_cur ∧ s.AdvanceN k = (.ok (), s.stepN k) ∧
      ReadUntil chars s = (.ok (s.m_cur + k), s.stepN k)) ∧
    (∃ k, k ≤ s.buf.length - s.m_cur ∧ s.AdvanceN k = (.ok (), s.stepN k) ∧
      ReadWhile chars s = (.ok (s.m_cur + k), s.stepN k)) ∧
    (∃ k, k ≤ s.buf.length - s.m_cur ∧ s.AdvanceN k = (.ok (), s.stepN k) ∧
      DiscardUntil chars s = (.ok (s.m_cur + k), s.stepN k)) ∧
    (∃ k, k ≤ s.buf.length - s.m_cur ∧ s.AdvanceN k = (.ok (), s.stepN k) ∧
      DiscardWhile chars s = (.ok (s.m_cur + k), s.stepN k)) := by
  refine ⟨?_, ?_, scan_run _ s, scan_run _ s, scan_run _ s, scan_run _ s⟩
  · rcases ReadInteger_run chars s with ⟨-, h⟩ | ⟨k, h1, hk, h⟩
    · exact Or.inl h
    · exact Or.inr ⟨k, h1, hk, AdvanceN_of_le k s hk, h⟩
  · rcases ReadDecimal_run chars s with ⟨-, h⟩ | ⟨k, h1, hk, h⟩
    · exact Or.inl h
    · exact Or.inr ⟨k, h1, hk, AdvanceN_of_le k s hk, h⟩
/-! ## Discarding a literal -/

theorem Discard_test_eq_false_iff (str : List Char) (s : TokenizerState) :
    (List.range str.length).any
        (fun i => s.LookAhead i == NUL || s.LookAhead i != str.getD i NUL) = false ↔
      NUL ∉ str ∧ StartsWith str s := by
  constructor
  · intro h
    have h' : ∀ i, i < str.length → s.LookAhead i ≠ NUL ∧ s.LookAhead i = str[i]?.getD NUL := by
      intro i hi
      have := (List.any_eq_false.1 h) i (List.mem_range.2 hi)
      simpa using this
    constructor
    · intro hmem
      obtain ⟨i, hi, he⟩ := List.getElem_of_mem hmem
      have := h' i hi
      rw [List.getElem?_eq_getElem hi] at this
      simp only [Option.getD_some] at this
      exact this.1 (this.2.trans he)
    · intro i hi
      have := h' i hi
      rw [List.getElem?_eq_getElem hi] at this ⊢
      simp only [Option.getD_some] at this
      exact (LookAhead_eq_iff s i (this.2 ▸ this.1)).1 this.2
  · rintro ⟨hnul, hst⟩
    rw [List.any_eq_false]
    intro i hi
    have hi' := List.mem_range.1 hi
    have hs := hst i hi'
    rw [List.getElem?_eq_getElem hi'] at hs
    have hla : s.LookAhead i = str[i] := LookAhead_of_get hs
    have hne : str[i] ≠ NUL := fun h => hnul (h ▸ List.getElem_mem hi')
    simp [hla, hne, List.getElem?_eq_getElem hi']

theorem StartsWith_length_le {str : List Char} {s : TokenizerState} (h : StartsWith str s) :
    str.length ≤ s.buf.length - s.m_cur := by
  cases hl : str.length with
  | zero => exact Nat.zero_le _
  | succ n =>
    have hn : n < str.length := by omega
    have := h n hn
    rw [List.getElem?_eq_getElem hn] at this
    have hlt : s.m_cur + n < s.buf.length := by
      by_contra hc
      rw [List.getElem?_eq_none (by omega)] at this
      cases this
    omega

/-- Counterexample to C11 as stated: the buffer consisting of the character `0`
and `a` starts with the literal consisting of the character `0`, all of it
before the end, yet `Discard` returns no match and does not advance. -/
theorem Discard_rejects_NUL_literal :
    StartsWith [NUL] (TokenizerState.new [NUL, 'a'] ['"'] '\\') ∧
      Discard [NUL] (TokenizerState.new [NUL, 'a'] ['"'] '\\') =
        (.ok none, TokenizerState.new [NUL, 'a'] ['"'] '\\') := by
  refine ⟨fun i hi => ?_, rfl⟩
  have : i = 0 := by simpa using hi
  subst this
  rfl

/-- C11, amended (`Discard`).  For a literal without a `0` character: if the
buffer characters starting at the cursor equal the literal exactly, all of
them before the end, then `Discard` advances by exactly the length of the
literal, with the bookkeeping of that many calls of `Advance()`, and returns
the new position.  Otherwise, and for every literal that contains a `0`
character, it returns no match and leaves the state unchanged.  It never
throws. -/
theorem Discard_spec (str : List Char) (s : TokenizerState) :
    (NUL ∉ str → StartsWith str s →
      s.AdvanceN str.length = (.ok (), s.stepN str.length) ∧
      Discard str s = (.ok (some (s.m_cur + str.length)), s.stepN str.length)) ∧
    ((NUL ∈ str ∨ ¬ StartsWith str s) → Discard str s = (.ok none, s)) ∧
    (∀ e s', Discard str s ≠ (.error e, s')) := by
  have hyes : NUL ∉ str → StartsWith str s →
      s.AdvanceN str.length = (.ok (), s.stepN str.length) ∧
      Discard str s = (.ok (some (s.m_cur + str.length)), s.stepN str.length) := by
    intro hnul hst
    have hadv := AdvanceN_of_le str.length s (StartsWith_length_le hst)
    refine ⟨hadv, ?_⟩
    unfold Tokenizer.Discard
    rw [(Discard_test_eq_false_iff str s).2 ⟨hnul, hst⟩, hadv]
    simp [TokenizerState.CurPos]
  have hno : (NUL ∈ str ∨ ¬ StartsWith str s) → Discard str s = (.ok none, s) := by
    intro h
    have : (List.range str.length).any
        (fun i => s.LookAhead i == NUL || s.LookAhead i != str.getD i NUL) = true := by
      by_contra hc
      have := (Discard_test_eq_false_iff str s).1 (by simpa using hc)
      rcases h with h | h
      · exact this.1 h
      · exact h this.2
    unfold Tokenizer.Discard
    rw [this]; rfl
  refine ⟨hyes, hno, ?_⟩
  intro e s' h
  by_cases hc : NUL ∈ str ∨ ¬ StartsWith str s
  · rw [hno hc] at h
    cases (Prod.mk.inj h).1
  · simp only [not_or, not_not] at hc
    rw [(hyes hc.1 hc.2).2] at h
    cases (Prod.mk.inj h).1

/-- Witness for the amended C11: `Discard("ab")` at the start of `abc` returns
offset 2. -/
theorem Discard_spec_witness :
    (TokenizerState.new ['a', 'b', 'c'] ['"'] '\\').AdvanceN 2 =
        (.ok (), (TokenizerState.new ['a', 'b', 'c'] ['"'] '\\').stepN 2) ∧
      Discard ['a', 'b'] (TokenizerState.new ['a', 'b', 'c'] ['"'] '\\') =
        (.ok (some (0 + 2)), (TokenizerState.new ['a', 'b', 'c'] ['"'] '\\').stepN 2) :=
  (Discard_spec ['a', 'b'] (TokenizerState.new ['a', 'b', 'c'] ['"'] '\\')).1
    (by decide) (by unfold StartsWith; decide)
/-! ## The cursor invariant -/

theorem CursorInv_step {buf : List Char} {s : TokenizerState} (h : CursorInv buf s)
    (hE : s.Eof = false) : CursorInv buf s.step := by
  obtain ⟨hb, -, hl, hc⟩ := h
  have hlt := (Eof_eq_false_iff s).1 hE
  refine ⟨by simpa using hb, by simp; omega, ?_, ?_⟩
  · unfold TokenizerState.step
    split
    · simp
    · simpa using hl
  · unfold TokenizerState.step
    split <;> simp

theorem CursorInv_stepN {buf : List Char} (k : Nat) {s : TokenizerState}
    (h : CursorInv buf s) (hk : k ≤ s.buf.length - s.m_cur) : CursorInv buf (s.stepN k) := by
  induction k generalizing s with
  | zero => exact h
  | succ k ih =>
    have hE : s.Eof = false := (Eof_eq_false_iff s).2 (by omega)
    simp only [TokenizerState.stepN]
    exact ih (CursorInv_step h hE) (by simp; omega)

theorem CursorInv_ResetEscaped {buf : List Char} {s : TokenizerState} (h : CursorInv buf s) :
    CursorInv buf s.ResetEscaped := h

theorem AdvanceN_state (n : Nat) (s : TokenizerState) :
    ∃ k, k ≤ s.buf.length - s.m_cur ∧ (s.AdvanceN n).2 = s.stepN k := by
  induction n generalizing s with
  | zero => exact ⟨0, Nat.zero_le _, rfl⟩
  | succ n ih =>
    cases hE : s.Eof
    · have hlt := (Eof_eq_false_iff s).1 hE
      obtain ⟨k, hk, hr⟩ := ih s.step
      refine ⟨k + 1, by simp at hk; omega, ?_⟩
      simp only [TokenizerState.AdvanceN, Advance_of_not_eof hE, Outcome.bind_ok]
      rw [hr]; rfl
    · refine ⟨0, Nat.zero_le _, ?_⟩
      simp only [TokenizerState.AdvanceN, Advance_of_eof hE, Outcome.bind_error]
      rfl

theorem Discard_state (str : List Char) (s : TokenizerState) :
    ∃ k, k ≤ s.buf.length - s.m_cur ∧ (Discard str s).2 = s.stepN k := by
  unfold Tokenizer.Discard
  cases ht : (List.range str.length).any
      (fun i => s.LookAhead i == NUL || s.LookAhead i != str.getD i NUL)
  · have hst := ((Discard_test_eq_false_iff str s).1 ht).2
    have hle := StartsWith_length_le hst
    refine ⟨str.length, hle, ?_⟩
    simp [AdvanceN_of_le str.length s hle]
  · exact ⟨0, Nat.zero_le _, by simp [TokenizerState.stepN]⟩

theorem ReadQuotedString_state (delim : Char) (hack : List Char) (s : TokenizerState) :
    ∃ k, k ≤ s.buf.length - s.m_cur ∧
      ((ReadQuotedString delim hack s).2 = s.stepN k ∨
       (ReadQuotedString delim hack s).2 = (s.stepN k).ResetEscaped ∨
       (∃ j, k = j + 1 ∧ (ReadQuotedString delim hack s).2 = ((s.stepN j).ResetEscaped).step)) := by
  obtain ⟨k, t, -, hk, ht, hr⟩ := ReadQuotedStringLoop_run delim hack (s.End - s.m_cur) s
  rw [text_length] at hk
  rw [ReadQuotedString_of_loop hr]
  cases hE : t.Eof
  · have hlt := (Eof_eq_false_iff t).1 hE
    simp only [Bool.false_eq_true, if_false]
    rcases ht with rfl | rfl
    · refine ⟨k + 1, ?_, Or.inl ?_⟩
      · simp at hlt; omega
      · exact (stepN_succ k s).symm
    · refine ⟨k + 1, ?_, Or.inr (Or.inr ⟨k, rfl, rfl⟩)⟩
      simp [TokenizerState.ResetEscaped] at hlt; omega
  · simp only [if_true]
    rcases ht with rfl | rfl
    · exact ⟨k, hk, Or.inl rfl⟩
    · exact ⟨k, hk, Or.inr (Or.inl rfl)⟩

theorem Reachable_CursorInv {buf escapable_chars : List Char} {escape_char : Char}
    {s : TokenizerState} (h : Reachable buf escapable_chars escape_char s) :
    CursorInv buf s := by
  induction h with
  | construct => exact ⟨rfl, Nat.zero_le _, le_refl _, le_refl _⟩
  | @advance s _ ih =>
    cases hE : s.Eof
    · rw [Advance_of_not_eof hE]; exact CursorInv_step ih hE
    · rw [Advance_of_eof hE]; exact ih
  | @advanceN s n _ ih =>
    obtain ⟨k, hk, hr⟩ := AdvanceN_state n s
    rw [hr]; exact CursorInv_stepN k ih hk
  | reset _ ih => exact ⟨ih.1, Nat.zero_le _, le_refl _, le_refl _⟩
  | @restore s t _ _ ihs iht =>
    obtain ⟨hb, -, -, -⟩ := ihs
    obtain ⟨hb', hc', hl', hcol'⟩ := iht
    refine ⟨hb, ?_, hl', hcol'⟩
    show t.m_cur ≤ s.buf.length
    rw [hb, ← hb']; exact hc'
  | @readInteger s delims _ ih =>
    rcases ReadInteger_run delims s with ⟨-, h⟩ | ⟨k, -, hk, h⟩
    · rw [h]; exact ih
    · rw [h]; split
      · exact CursorInv_stepN k ih hk
      · exact ih
  | @readDecimal s delims _ ih =>
    rcases ReadDecimal_run delims s with ⟨-, h⟩ | ⟨k, -, hk, h⟩
    · rw [h]; exact ih
    · rw [h]; split
      · exact CursorInv_stepN k ih hk
      · exact ih
  | @readUntil s delims _ ih =>
    obtain ⟨k, hk, -, hr⟩ := scan_run (fun c => !IsAnyOf c delims) s
    unfold Tokenizer.ReadUntil
    rw [hr]; exact CursorInv_stepN k ih hk
  | @readWhile s allow _ ih =>
    obtain ⟨k, hk, -, hr⟩ := scan_run (fun c => IsAnyOf c allow) s
    unfold Tokenizer.ReadWhile
    rw [hr]; exact CursorInv_stepN k ih hk
  | @readQuotedString s delim hack _ ih =>
    obtain ⟨k, hk, hr | hr | ⟨j, rfl, hr⟩⟩ := ReadQuotedString_state delim hack s
    · rw [hr]; exact CursorInv_stepN k ih hk
    · rw [hr]; exact CursorInv_ResetEscaped (CursorInv_stepN k ih hk)
    · rw [hr]
      have hj := CursorInv_ResetEscaped (CursorInv_stepN j ih (by omega))
      refine CursorInv_step hj ?_
      rw [Eof_eq_false_iff]
      simp [TokenizerState.ResetEscaped]; omega
  | @discard s str _ ih =>
    obtain ⟨k, hk, hr⟩ := Discard_state str s
    rw [hr]; exact CursorInv_stepN k ih hk

/-- C18 (cursor invariant).  Every state reachable from the construction of a
cursor over a buffer by calls of `Advance()`, `Advance(n)`, `Reset()`,
`Restore` of a snapshot taken from the same cursor, `ReadInteger`,
`ReadDecimal`, `ReadUntil`, `ReadWhile`, `ReadQuotedString` and `Discard`,
each returning or throwing, satisfies `m_begin <= m_cur <= m_end`,
`m_line >= 1` and `m_column >= 1`, over the buffer it was constructed with. -/
theorem cursor_invariant (buf escapable_chars : List Char) (escape_char : Char)
    (s : TokenizerState) (h : Reachable buf escapable_chars escape_char s) :
    s.Begin ≤ s.m_cur ∧ s.m_cur ≤ s.End ∧ 1 ≤ s.m_line ∧ 1 ≤ s.m_column ∧ s.buf = buf := by
  obtain ⟨hb, hc, hl, hcol⟩ := Reachable_CursorInv h
  exact ⟨Nat.zero_le _, hc, hl, hcol, hb⟩

/-- Witness for C18: the state after `ReadQuotedString` has run off the buffer
`ab` and a further `Advance()` has thrown. -/
theorem cursor_invariant_witness :
    ((ReadQuotedString '"' [] (TokenizerState.new ['a', 'b'] ['"'] '\\')).2.Advance).2.Begin ≤
        ((ReadQuotedString '"' [] (TokenizerState.new ['a', 'b'] ['"'] '\\')).2.Advance).2.m_cur ∧
      ((ReadQuotedString '"' [] (TokenizerState.new ['a', 'b'] ['"'] '\\')).2.Advance).2.m_cur ≤
        ((ReadQuotedString '"' [] (TokenizerState.new ['a', 'b'] ['"'] '\\')).2.Advance).2.End ∧
      1 ≤ ((ReadQuotedString '"' [] (TokenizerState.new ['a', 'b'] ['"'] '\\')).2.Advance).2.m_line ∧
      1 ≤ ((ReadQuotedString '"' [] (TokenizerState.new ['a', 'b'] ['"'] '\\')).2.Advance).2.m_column ∧
      ((ReadQuotedString '"' [] (TokenizerState.new ['a', 'b'] ['"'] '\\')).2.Advance).2.buf =
        ['a', 'b'] :=
  cursor_invariant ['a', 'b'] ['"'] '\\' _
    (Reachable.advance (Reachable.readQuotedString '"' [] Reachable.construct))
/-! ## Reading any string -/

theorem ReadAnyStringLoop_exits (fuel : Nat) (s t : TokenizerState) (hf : s.text.length ≤ fuel)
    (h : ReadAnyStringLoop fuel s = (.ok (), t)) : IsWhitespace (CurChar t) = false := by
  induction fuel generalizing s with
  | zero =>
    have hE := text_nil (List.length_eq_zero.1 (Nat.le_zero.1 hf))
    cases (Prod.mk.inj h).2
    rw [hE.2]; decide
  | succ fuel ih =>
    rw [Tokenizer.ReadAnyStringLoop] at h
    by_cases hc : IsWhitespace (CurChar s) = true
    · rw [if_pos hc] at h
      have hE : s.Eof = false := by
        apply not_eof_of_CurChar
        intro hn
        rw [hn] at hc
        revert hc
        decide
      rw [Advance_of_not_eof hE, Outcome.bind_ok] at h
      refine ih s.step ?_ h
      rw [text_of_not_eof hE] at hf
      simpa using hf
    · rw [if_neg hc] at h
      cases (Prod.mk.inj h).2
      simpa using hc

theorem ReadAnyString_at_quote (delims : List Char) (s : TokenizerState)
    (hq : s.buf[s.m_cur]? = some '"') (hesc : s.Escaped = false) :
    ReadAnyString delims s = (.ok [], s.step) := by
  obtain ⟨hE, hc⟩ := (buf_get_iff s '"').1 hq
  have hlt := (Eof_eq_false_iff s).1 hE
  have hloop : ReadAnyStringLoop (s.End - s.m_cur) s = (.ok (), s) := by
    obtain ⟨n, hn⟩ : ∃ n, s.End - s.m_cur = n + 1 :=
      ⟨s.buf.length - s.m_cur - 1, by simp only [TokenizerState.End]; omega⟩
    rw [hn, Tokenizer.ReadAnyStringLoop, hc]
    rfl
  have hq' : ReadQuotedStringLoop '"' [] (s.End - s.m_cur) s = (.ok (), s) :=
    ReadQuotedStringLoop_exit '"' [] _ s (Or.inr ⟨hc, hesc⟩)
  unfold Tokenizer.ReadAnyString
  rw [hloop, Outcome.bind_ok, if_pos hc, ReadQuotedString_of_loop hq', hE]
  simp [TokenizerState.slice, TokenizerState.CurPos]

/-- C12 fails on the code: on the buffer `"hi" x` with `delims` a space,
`ReadAnyString` returns the empty text, not `hi`, and leaves the cursor at
offset 1, just after the opening quote.  It calls `ReadQuotedString` with the
cursor still on the opening quote, which is an unescaped delimiter, so the scan
ends where it starts. -/
theorem ReadAnyString_quoted_returns_empty :
    ReadAnyString [' '] (TokenizerState.new ['"', 'h', 'i', '"', ' ', 'x'] ['"'] '\\') =
        (.ok [], (TokenizerState.new ['"', 'h', 'i', '"', ' ', 'x'] ['"'] '\\').stepN 1) ∧
      (TokenizerState.new ['"', 'h', 'i', '"', ' ', 'x'] ['"'] '\\').slice 1 3 = ['h', 'i'] := by
  constructor
  · rfl
  · rfl

/-! ## The parser helper -/

/-- C13 fails on the code: with the name table `{1: "Integer", 2: "String"}` and
the mask `1|2`, `TokenName` returns `Integer, String, `, with a separator after
the last name, where joining with `", "` between consecutive names gives
`Integer, String`.  With one name there is no separator after it. -/
theorem TokenName_trailing_separator :
    (Parser.TokenName [(1, "Integer"), (2, "String")] { m_token_names := [] } 3).1 =
        "Integer, String, " ∧
      joinedNames ["Integer", "String"] = "Integer, String" ∧
      (Parser.TokenName [(1, "Integer"), (2, "String")] { m_token_names := [] } 1).1 =
        "Integer" ∧
      (Parser.TokenName [(1, "Integer"), (2, "String")] { m_token_names := [] } 4).1 =
        "unknown token type" := by
  decide

theorem TokenName_snd (TokenNames : TokenNameMap) (p : Parser) (mask : Nat) :
    (Parser.TokenName TokenNames p mask).2 =
      (if p.m_token_names.isEmpty then ({ m_token_names := TokenNames } : Parser) else p) := by
  unfold Parser.TokenName
  simp only []
  split_ifs <;> rfl

theorem TokenName_cache (TokenNames : TokenNameMap) (p : Parser) (mask mask' : Nat) :
    Parser.TokenName TokenNames (Parser.TokenName TokenNames p mask).2 mask' =
      ((Parser.TokenName TokenNames p mask').1, (Parser.TokenName TokenNames p mask).2) := by
  have hidem : (if (if p.m_token_names.isEmpty then
        ({ m_token_names := TokenNames } : Parser) else p).m_token_names.isEmpty
      then ({ m_token_names := TokenNames } : Parser)
      else (if p.m_token_names.isEmpty then ({ m_token_names := TokenNames } : Parser) else p)) =
      (if p.m_token_names.isEmpty then ({ m_token_names := TokenNames } : Parser) else p) := by
    cases hp : p.m_token_names.isEmpty
    · simp [hp]
    · simp only [if_true]
      split <;> rfl
  have key : Parser.TokenName TokenNames
      (if p.m_token_names.isEmpty then ({ m_token_names := TokenNames } : Parser) else p) mask' =
      Parser.TokenName TokenNames p mask' := by
    unfold Parser.TokenName
    simp only [hidem]
  rw [TokenName_snd TokenNames p mask, key, ← TokenName_snd TokenNames p mask']

/-- Counterexample to C14 as stated: in a program compiled without `NDEBUG`,
`Expect` with mask 1 and a token of type 2 does not throw: the `assert(0)` in
front of the `throw` aborts the program. -/
theorem Expect_aborts_with_assertions :
    Parser.Check 1 ⟨2, 0, 0, 0, 1, 1⟩ = false ∧
      Parser.Expect false [(1, "Integer"), (2, "String")] [] { m_token_names := [] } 1
        ⟨2, 0, 0, 0, 1, 1⟩ = (.aborted, { m_token_names := [] }) := by
  decide

/-- C14, amended (`Check` and `Expect`).  `Check(mask, token)` is true if and
only if `token.type & mask != 0`.  When it is true, `Expect(mask, token)`
returns the token unchanged.  When it is false and the program is compiled
with `NDEBUG`, `Expect` throws the exception that carries the line and the
column of the token and the message `Expected {names}, but got {name}`, where
`{names}` is `TokenName(mask)` and `{name}` is `TokenName` of the type of the
token, followed by ` (raw data: '{text}')` exactly when the raw text of the
token is not empty.  When it is false and the program is compiled without
`NDEBUG`, the `assert(0)` in front of the `throw` aborts the program. -/
theorem Expect_spec (NDEBUG : Bool) (TokenNames : TokenNameMap) (buf : List Char) (p : Parser)
    (mask : Nat) (token : Token) :
    (Parser.Check mask token = true ↔ token.m_type &&& mask ≠ 0) ∧
    (Parser.Check mask token = true →
      Parser.Expect NDEBUG TokenNames buf p mask token = (.returned token, p)) ∧
    (Parser.Check mask token = false → NDEBUG = true →
      Parser.Expect NDEBUG TokenNames buf p mask token =
        (.thrown (ParserException.located token.m_line token.m_column
          (if (token.Data buf).isEmpty then
            "Expected " ++ (Parser.TokenName TokenNames p mask).1 ++ ", but got " ++
              (Parser.TokenName TokenNames p token.m_type).1
          else
            "Expected " ++ (Parser.TokenName TokenNames p mask).1 ++ ", but got " ++
              (Parser.TokenName TokenNames p token.m_type).1 ++
              " (raw data: '" ++ token.Data buf ++ "')")),
         (Parser.TokenName TokenNames p mask).2)) ∧
    (Parser.Check mask token = false → NDEBUG = false →
      Parser.Expect NDEBUG TokenNames buf p mask token = (.aborted, p)) := by
  refine ⟨?_, ?_, ?_, ?_⟩
  · simp [Parser.Check, Token.HasType]
  · intro h
    simp [Parser.Expect, h]
  · intro h hn
    subst hn
    unfold Parser.Expect Parser.ExpectString
    simp only [h, Bool.not_false, if_true, Token.GetType, TokenName_cache]
    cases hd : (token.Data buf).isEmpty
    · simp [assert]
    · simp [assert]
  · intro h hn
    subst hn
    simp [Parser.Expect, h, assert]

/-- Witness for the amended C14: with the table `{1: "Integer", 2: "String"}`,
mask 1 and a token of type 2 over the text `hi` on line 1 and in column 1, a
program compiled with `NDEBUG` throws, with that line and column, the message
`Expected Integer, but got String (raw data: 'hi')`. -/
theorem Expect_spec_witness :
    Parser.Expect true [(1, "Integer"), (2, "String")] ['h', 'i'] { m_token_names := [] } 1
        ⟨2, 0, 2, 0, 1, 1⟩ =
      (.thrown (ParserException.located 1 1 "Expected Integer, but got String (raw data: 'hi')"),
        { m_token_names := [(1, "Integer"), (2, "String")] }) :=
  (Expect_spec true [(1, "Integer"), (2, "String")] ['h', 'i'] { m_token_names := [] } 1
    ⟨2, 0, 2, 0, 1, 1⟩).2.2.1 (by decide) rfl

end lexer
